import Mathlib

/-!
Shallow embedding of the olric partition-rebalancer core (dmap_rebalancer:
`moveDMap`, `selectVersionForMerge`, `mergeDMaps`, `rebalancePrimaryPartitions`,
`rebalanceBackupPartitions`, `rebalancer`, `checkOwnership`, `moveDMapOperation`).

External collaborators (storage engine internals, msgpack codec, transport,
discovery, liveness) are modelled as explicit oracle parameters or injected
fault tables, following the collaborator contracts; the control flow of each
embedded function mirrors the Go source line by line.
-/

/-- Error kinds that flow through the rebalancer core.  `wrapped` models
`fmt.Errorf("...: %w", err)`; `other` models any further storage or transport
error value. -/
inductive OlricErr where
  | keyNotFound
  | fragmented
  | invalidArgument
  | decodeFail
  | wrapped (inner : OlricErr)
  | other (code : Nat)
deriving DecidableEq, Repr

/-- Model of Go `errors.Is`: unwrap the `%w` chain looking for the target. -/
def errorsIs : OlricErr → OlricErr → Bool
  | .wrapped inner, target =>
      (if OlricErr.wrapped inner = target then true else false) || errorsIs inner target
  | e, target => if e = target then true else false

/-- A storage entry (model of `storage.Entry`): key, TTL, timestamp and value. -/
structure Entry where
  key : String
  ttl : Int
  timestamp : Int
  value : List Nat
deriving DecidableEq, Repr

/-- Wrapper used by `sortVersions` (the Go `version` struct). -/
structure Version where
  entry : Entry
deriving DecidableEq, Repr

/-- A cluster member: stable name plus birthdate distinguishing restarts, and
the numeric id used by discovery lookups. -/
structure Member where
  name : String
  birthdate : Int
  id : Nat
deriving DecidableEq, Repr

/-- Modelled from the spec: `cmpMembersByID` is not part of the excerpt; the
`by_id` comparator matches "name AND birthdate". -/
def cmpMembersByID (a b : Member) : Bool :=
  if a.name = b.name ∧ a.birthdate = b.birthdate then true else false

/-- Modelled from the spec: `cmpMembersByName` is not part of the excerpt; the
`by_name` comparator matches the name only. -/
def cmpMembersByName (a b : Member) : Bool :=
  if a.name = b.name then true else false

/-- First-match association-list lookup (model of map access). -/
def lookupA {κ α : Type} [DecidableEq κ] : List (κ × α) → κ → Option α
  | [], _ => none
  | (k, v) :: rest, h => if k = h then some v else lookupA rest h

/-- Replace the binding of `k` (first occurrence) or append it;
model of `sync.Map.Store`. -/
def storeA {κ α : Type} [DecidableEq κ] (k : κ) (v : α) : List (κ × α) → List (κ × α)
  | [] => [(k, v)]
  | (k', v') :: rest => if k' = k then (k, v) :: rest else (k', v') :: storeA k v rest

/-- Remove every binding of `k`; model of `sync.Map.Delete`. -/
def deleteA {κ α : Type} [DecidableEq κ] (k : κ) : List (κ × α) → List (κ × α)
  | [] => []
  | (k', v') :: rest => if k' = k then deleteA k rest else (k', v') :: deleteA k rest

/-- Sorted insert-or-replace for the canonical fragment representation. -/
def insertA {α : Type} (h : Nat) (e : α) : List (Nat × α) → List (Nat × α)
  | [] => [(h, e)]
  | (k, v) :: rest =>
    if h < k then (h, e) :: (k, v) :: rest
    else if h = k then (h, e) :: rest
    else (k, v) :: insertA h e rest

/-- Canonical-form invariant of a keyed list: keys strictly increase. -/
def keysSorted {α : Type} (l : List (Nat × α)) : Prop :=
  List.Pairwise (fun a b => a.1 < b.1) l

instance {α : Type} (l : List (Nat × α)) : Decidable (keysSorted l) := by
  unfold keysSorted; infer_instance

/-- A storage fragment: the `(hkey, entry)` contents in canonical order, plus
fault-injection tables modelling the engine-internal failures the contract
allows `Get` and `Put` to report (the engine itself is an external
collaborator). -/
structure Fragment where
  entries : List (Nat × Entry)
  getFault : List (Nat × OlricErr)
  putFault : List (Nat × OlricErr)
deriving DecidableEq, Repr

def emptyFragment : Fragment := ⟨[], [], []⟩

/-- Model of the engine `Get`: an injected fault if present, otherwise the
stored entry, otherwise the distinct key-not-found condition. -/
def storageGet (f : Fragment) (hkey : Nat) : Except OlricErr Entry :=
  match lookupA f.getFault hkey with
  | some e => .error e
  | none =>
    match lookupA f.entries hkey with
    | some ent => .ok ent
    | none => .error .keyNotFound

/-- Model of the engine `Put`: on the fragmented signal the write still lands
(the engine opened a fresh table) and the signal is reported; on any other
injected fault nothing is written. -/
def storagePut (f : Fragment) (hkey : Nat) (ent : Entry) : Fragment × Option OlricErr :=
  match lookupA f.putFault hkey with
  | none => ({ f with entries := insertA hkey ent f.entries }, none)
  | some .fragmented => ({ f with entries := insertA hkey ent f.entries }, some .fragmented)
  | some e => (f, some e)

/-- The eviction cache attached to a dmap; only the access log is relevant to
the rebalancer. `accessLog = none` models a nil map inside a non-nil cache. -/
structure Cache where
  accessLog : Option (List (Nat × Int))
deriving DecidableEq, Repr

/-- A named data map: one storage fragment plus an optional cache. -/
structure Dmap where
  storage : Fragment
  cache : Option Cache
deriving DecidableEq, Repr

/-- A partition: id, backup flag, owners list and the name-keyed map table. -/
structure Partition where
  id : Nat
  backup : Bool
  owners : List Member
  maps : List (String × Dmap)
deriving DecidableEq, Repr

def defaultPartition : Partition := ⟨0, false, [], []⟩

/-- Modelled from the spec: `partition.owner()` is not part of the excerpt;
"primary_owner() — owners()[0]". -/
def partOwner (p : Partition) : Member :=
  p.owners.headD ⟨"", 0, 0⟩

instance exceptDecEq {ε α : Type} [DecidableEq ε] [DecidableEq α] :
    DecidableEq (Except ε α) := fun a b =>
  match a, b with
  | .ok x, .ok y =>
    if h : x = y then .isTrue (by rw [h]) else .isFalse (by intro hh; cases hh; exact h rfl)
  | .error x, .error y =>
    if h : x = y then .isTrue (by rw [h]) else .isFalse (by intro hh; cases hh; exact h rfl)
  | .ok _, .error _ => .isFalse (by intro hh; cases hh)
  | .error _, .ok _ => .isFalse (by intro hh; cases hh)

/-- The decoded transfer payload (`dmapbox` after `msgpack.Unmarshal`); the
`payload` field carries the result of `storage.Import` on the payload bytes,
since the byte-level codec is an external collaborator. -/
structure Dmapbox where
  partID : Nat
  backup : Bool
  name : String
  payload : Except OlricErr Fragment
  accessLog : List (Nat × Int)
deriving DecidableEq, Repr

/-- The wire-side `dmapbox` built by the sender before `msgpack.Marshal`. -/
structure WireBox where
  partID : Nat
  backup : Bool
  name : String
  payload : List Nat
  accessLog : Option (List (Nat × Int))
deriving DecidableEq, Repr

/-- Node state consumed by the rebalancer core: identity, the two partition
arrays, the configured cache template for freshly created dmaps, the
`isOperable` outcome, and the replica configuration. -/
structure Olric where
  this : Member
  partitions : List Partition
  backups : List Partition
  newCache : Option Cache
  operable : Option OlricErr
  replicaCount : Nat
  minimumReplicaCount : Nat
deriving DecidableEq, Repr

/-- Modelled from the spec: `sortVersions` is not part of the excerpt; "sort a
two-element list by a defined version order (descending by timestamp/version
...)".  Stable insertion step: `x` (earlier in the list) moves past `y` only
when `y` is strictly newer. -/
def insertVersion (x : Version) : List Version → List Version
  | [] => [x]
  | y :: ys =>
    if x.entry.timestamp < y.entry.timestamp then y :: insertVersion x ys
    else x :: y :: ys

/-- Modelled from the spec: stable sort of versions, descending by entry
timestamp. -/
def sortVersions : List Version → List Version
  | [] => []
  | x :: xs => insertVersion x (sortVersions xs)

/-- `selectVersionForMerge` (Go lines 77-88): read the local entry; on
key-not-found the incoming entry wins; any other lookup error propagates;
otherwise position 0 of the sorted two-element `{local, incoming}` list wins. -/
def selectVersionForMerge (dm : Dmap) (hkey : Nat) (entry : Entry) : Except OlricErr Entry :=
  match storageGet dm.storage hkey with
  | .error err => if err = .keyNotFound then .ok entry else .error err
  | .ok current =>
    let versions : List Version := [⟨current⟩, ⟨entry⟩]
    .ok (((sortVersions versions).headD ⟨entry⟩).entry)

/-- The receive-side access-log merge (Go lines 109-113): insert an incoming
`(hkey, t)` only when `hkey` is absent from the local log. -/
def mergeAL : List (Nat × Int) → List (Nat × Int) → List (Nat × Int)
  | al, [] => al
  | al, (k, t) :: rest =>
    match lookupA al k with
    | some _ => mergeAL al rest
    | none => mergeAL (al ++ [(k, t)]) rest

/-- Cache-level view of the guarded access-log merge (Go line 107's
`dm.cache != nil && dm.cache.accessLog != nil` guard). -/
def mergeCache (c : Option Cache) (inc : List (Nat × Int)) : Option Cache :=
  match c with
  | none => none
  | some cc =>
    match cc.accessLog with
    | none => some cc
    | some al => some { accessLog := some (mergeAL al inc) }

/-- Modelled from the spec: `getOrCreateDMap` is not part of the excerpt;
"Locate-or-create the target DataMap under the partition's map table".  A fresh
dmap has empty storage and the node's configured cache template. -/
def getOrCreateDMap (db : Olric) (part : Partition) (name : String) : Dmap :=
  match lookupA part.maps name with
  | some dm => dm
  | none => { storage := emptyFragment, cache := db.newCache }

/-- The `str.Range` merge iteration of `mergeDMaps` (Go lines 126-142); the
result carries the mutated dmap, the number of async compaction tasks spawned
(`db.wg.Add(1); go db.compactTables(dm)`), and the first fatal error. -/
def mergeLoop (dm : Dmap) (comps : Nat) : List (Nat × Entry) → Dmap × Nat × Option OlricErr
  | [] => (dm, comps, none)
  | (hkey, ent) :: rest =>
    match selectVersionForMerge dm hkey ent with
    | .error e => (dm, comps, some e)
    | .ok winner =>
      match storagePut dm.storage hkey winner with
      | (st, none) => mergeLoop { dm with storage := st } comps rest
      | (st, some .fragmented) => mergeLoop { dm with storage := st } (comps + 1) rest
      | (_, some e) => (dm, comps, some e)

/-- `mergeDMaps` (Go lines 90-144).  The deferred `part.m.Store(data.Name, dm)`
runs on every return path after `getOrCreateDMap`, so each branch stores the
dmap back; the returned `Nat` counts spawned compaction tasks. -/
def mergeDMaps (db : Olric) (part : Partition) (data : Dmapbox) :
    Partition × Nat × Option OlricErr :=
  let dm := getOrCreateDMap db part data.name
  match data.payload with
  | .error e => ({ part with maps := storeA data.name dm part.maps }, 0, some e)
  | .ok str =>
    let dm := { dm with cache := mergeCache dm.cache data.accessLog }
    if dm.storage.entries.length = 0 then
      let dm := { dm with storage := str }
      ({ part with maps := storeA data.name dm part.maps }, 0, none)
    else
      match mergeLoop dm 0 str.entries with
      | (dm', comps, merr) =>
        ({ part with maps := storeA data.name dm' part.maps }, comps, merr)

/-- The wire box built by `moveDMap` (Go lines 50-59): the access log is packed
only when the dmap has a cache with a non-nil access log. -/
def mkWireBox (part : Partition) (name : String) (dm : Dmap) (payload : List Nat) : WireBox :=
  { partID := part.id
    backup := part.backup
    name := name
    payload := payload
    accessLog :=
      match dm.cache with
      | none => none
      | some c =>
        match c.accessLog with
        | none => none
        | some al => some al }

/-- `moveDMap` (Go lines 42-75).  `exportF` models `dm.storage.Export()`,
`marshalF` models `msgpack.Marshal`, `requestF` models the blocking
`db.requestTo` round trip (its `Option OlricErr` is the returned error).  Only
when all three succeed is the map deleted from the partition's map table. -/
def moveDMap (part : Partition) (name : String) (dm : Dmap)
    (exportF : Fragment → Except OlricErr (List Nat))
    (marshalF : WireBox → Except OlricErr (List Nat))
    (requestF : List Nat → Option OlricErr) : Partition × Option OlricErr :=
  match exportF dm.storage with
  | .error e => (part, some e)
  | .ok payload =>
    match marshalF (mkWireBox part name dm payload) with
    | .error e => (part, some e)
    | .ok value =>
      match requestF value with
      | some e => (part, some e)
      | none => ({ part with maps := deleteA name part.maps }, none)

/-- `checkOwnership` (Go lines 269-277): the partition's owners list contains
the local node under the by-id comparator. -/
def checkOwnership (db : Olric) (part : Partition) : Bool :=
  part.owners.any (fun owner => cmpMembersByID owner db.this)

/-- Partition selected by `moveDMapOperation` (Go lines 295-300). -/
def boxPart (db : Olric) (box : Dmapbox) : Partition :=
  if box.backup then db.backups.getD box.partID defaultPartition
  else db.partitions.getD box.partID defaultPartition

/-- Write the merged partition back into the node state. -/
def setBoxPart (db : Olric) (box : Dmapbox) (part' : Partition) : Olric :=
  if box.backup then { db with backups := db.backups.set box.partID part' }
  else { db with partitions := db.partitions.set box.partID part' }

/-- Responses written by the receive handler: `w.SetStatus(protocol.StatusOK)`
or `db.errorResponse(w, err)`. -/
inductive Resp where
  | ok
  | err (e : OlricErr)
deriving DecidableEq, Repr

/-- `moveDMapOperation` (Go lines 279-320).  `reqValue` carries the
`msgpack.Unmarshal` outcome of the request value (`none` models a decode
failure).  The checks run in source order: operability, decode, ownership;
only then is `mergeDMaps` invoked. -/
def moveDMapOperation (db : Olric) (reqValue : Option Dmapbox) : Resp × Olric :=
  match db.operable with
  | some e => (.err e, db)
  | none =>
    match reqValue with
    | none => (.err .decodeFail, db)
    | some box =>
      let part := boxPart db box
      if checkOwnership db part = false then
        (.err (.wrapped .invalidArgument), db)
      else
        match mergeDMaps db part box with
        | (part', _, some e) => (.err e, setBoxPart db box part')
        | (part', _, none) => (.ok, setBoxPart db box part')


/-- Observable events of a rebalancer pass.  `tag` counts the oracle reads
(`isAlive` / `routingSignature` loads) performed before the event; `visit`
marks a primary partition whose maps are about to be iterated, `move` marks
one `moveDMap` call being initiated. -/
inductive Ev where
  | visit (tag : Nat) (partID : Nat)
  | move (tag : Nat) (partID : Nat) (name : String)
deriving DecidableEq, Repr

def Ev.tag : Ev → Nat
  | .visit t _ => t
  | .move t _ _ => t

def Ev.isMove : Ev → Bool
  | .visit _ _ => false
  | .move _ _ _ => true

def Ev.pid : Ev → Nat
  | .visit _ p => p
  | .move _ p _ => p

/-- Pair each partition with its index in the array. -/
def withIdx {α : Type} : Nat → List α → List (Nat × α)
  | _, [] => []
  | i, x :: xs => (i, x) :: withIdx (i + 1) xs

/-- The `part.m.Range` move loop shared by both passes (Go lines 175-185 and
240-250): move the map, then continue only while the routing signature still
equals the snapshot `rsign`.  Returns the emitted events and the advanced
read counter. -/
def rangeMaps (rsign : Nat) (sig : Nat → Nat) (partID : Nat) :
    List (String × Dmap) → Nat → List Ev × Nat
  | [], t => ([], t)
  | (name, _) :: rest, t =>
    if sig t = rsign then
      match rangeMaps rsign sig partID rest (t + 1) with
      | (evs, t') => (Ev.move t partID name :: evs, t')
    else
      ([Ev.move t partID name], t + 1)

/-- Partition loop of `rebalancePrimaryPartitions` (Go lines 148-186): stop on
shutdown or signature change at each partition boundary, skip empty partitions
and partitions already owned by this node by name. -/
def primLoop (db : Olric) (rsign : Nat) (sig : Nat → Nat) (alive : Nat → Bool) :
    List (Nat × Partition) → Nat → List Ev × Nat
  | [], t => ([], t)
  | (partID, part) :: rest, t =>
    if alive t = false then ([], t + 1)
    else if sig (t + 1) ≠ rsign then ([], t + 2)
    else if part.maps.length = 0 then primLoop db rsign sig alive rest (t + 2)
    else if cmpMembersByName (partOwner part) db.this then primLoop db rsign sig alive rest (t + 2)
    else
      match rangeMaps rsign sig partID part.maps (t + 2) with
      | (evs, t') =>
        match primLoop db rsign sig alive rest t' with
        | (evs2, t'') => (Ev.visit (t + 2) partID :: evs ++ evs2, t'')

/-- `rebalancePrimaryPartitions` (Go lines 146-187): snapshot the routing
signature, then walk the primary partitions. -/
def rebalancePrimaryPartitions (db : Olric) (sig : Nat → Nat) (alive : Nat → Bool)
    (t0 : Nat) : List Ev × Nat :=
  primLoop db (sig t0) sig alive (withIdx 0 db.partitions) (t0 + 1)

/-- The descending index loop `for i := len(owners)-1; i > offset; i--`
(Go line 210). -/
def loopIdx (i off : Int) : List Int :=
  if i > off then i :: loopIdx (i - 1) off else []
termination_by (i - off).toNat
decreasing_by
  omega

/-- The indexing `owner := owners[i]` of the Go loop body (line 211).  `none`
models the runtime panic `index out of range` that Go raises when the loop
counter has gone negative (or past the end): it is NOT a skip — the caller
aborts on it. -/
def ownerAt (owners : List Member) (i : Int) : Option Member :=
  if i < 0 then none else owners[i.toNat]?

/-- The body of the id-collection loop (Go lines 210-220), walking the index
list produced by `loopIdx`: skip this node by name, collect the other owners'
ids, and abort with `none` — the Go code panics — as soon as `owners[i]` is
out of range. -/
def collectIds (owners : List Member) (self : Member) : List Int → Option (List Nat)
  | [] => some []
  | i :: rest =>
    match ownerAt owners i with
    | none => none
    | some owner =>
      if cmpMembersByName self owner then collectIds owners self rest
      else
        match collectIds owners self rest with
        | none => none
        | some ids => some (owner.id :: ids)

/-- Owner-id selection of `rebalanceBackupPartitions` (Go lines 208-220): walk
the tail of the owners list beyond the replica budget.  `none` models the
`index out of range` panic reached whenever the descending loop runs past
position 0 (offset below -1). -/
def computeIds (owners : List Member) (self : Member) (rc : Nat) : Option (List Nat) :=
  let offset : Int := (owners.length : Int) - 1 - ((rc : Int) - 1)
  collectIds owners self (loopIdx ((owners.length : Int) - 1) offset)

/-- The per-id loop of `rebalanceBackupPartitions` (Go lines 222-251): stop on
shutdown or signature change before each id; a discovery failure for an id is
logged and skipped. -/
def idsLoop (rsign : Nat) (sig : Nat → Nat) (alive : Nat → Bool)
    (disco : Nat → Option Member) (partID : Nat) (maps : List (String × Dmap)) :
    List Nat → Nat → List Ev × Nat
  | [], t => ([], t)
  | id :: restIds, t =>
    if alive t = false then ([], t + 1)
    else if sig (t + 1) ≠ rsign then ([], t + 2)
    else
      match disco id with
      | none => idsLoop rsign sig alive disco partID maps restIds (t + 2)
      | some _ =>
        match rangeMaps rsign sig partID maps (t + 2) with
        | (evs, t') =>
          match idsLoop rsign sig alive disco partID maps restIds t' with
          | (evs2, t'') => (evs ++ evs2, t'')

/-- Partition loop of `rebalanceBackupPartitions` (Go lines 191-252): stop on
shutdown at each partition boundary, skip empty partitions and partitions whose
owners list already has exactly `ReplicaCount - 1` entries; a `none` from
`computeIds` models the `owners[i]` index-out-of-range panic, which kills the
pass on the spot (no further moves). -/
def backupLoop (db : Olric) (rsign : Nat) (sig : Nat → Nat) (alive : Nat → Bool)
    (disco : Nat → Option Member) : List (Nat × Partition) → Nat → List Ev × Nat
  | [], t => ([], t)
  | (partID, part) :: rest, t =>
    if alive t = false then ([], t + 1)
    else if part.maps.length = 0 then backupLoop db rsign sig alive disco rest (t + 1)
    else if (part.owners.length : Int) = (db.replicaCount : Int) - 1 then
      backupLoop db rsign sig alive disco rest (t + 1)
    else
      match computeIds part.owners db.this db.replicaCount with
      | none => ([], t + 1)
      | some ids =>
        match idsLoop rsign sig alive disco partID part.maps ids (t + 1) with
        | (evs, t') =>
          match backupLoop db rsign sig alive disco rest t' with
          | (evs2, t'') => (evs ++ evs2, t'')

/-- `rebalanceBackupPartitions` (Go lines 189-253). -/
def rebalanceBackupPartitions (db : Olric) (sig : Nat → Nat) (alive : Nat → Bool)
    (disco : Nat → Option Member) (t0 : Nat) : List Ev × Nat :=
  backupLoop db (sig t0) sig alive disco (withIdx 0 db.backups) (t0 + 1)

/-- `rebalancer` (Go lines 255-267): under the single-flight mutex, bail out
when not operable, run the primary pass, and run the backup pass only when the
configured replica count exceeds the minimum.  Returns the events of each
pass. -/
def rebalancer (db : Olric) (sig : Nat → Nat) (alive : Nat → Bool)
    (disco : Nat → Option Member) : List Ev × List Ev :=
  match db.operable with
  | some _ => ([], [])
  | none =>
    match rebalancePrimaryPartitions db sig alive 0 with
    | (evs1, t1) =>
      if db.minimumReplicaCount < db.replicaCount then
        (evs1, (rebalanceBackupPartitions db sig alive disco t1).1)
      else
        (evs1, [])

/-! ### Concrete sample values used by the witnesses -/

def mW : Member := ⟨"A", 5, 1⟩

def mBW : Member := ⟨"B", 6, 2⟩

def entW : Entry := ⟨"k", 0, 10, [1]⟩

def entW2 : Entry := ⟨"k", 0, 20, [2]⟩

def dmWit : Dmap := ⟨⟨[(7, entW)], [], []⟩, some ⟨some [(7, 100)]⟩⟩

def dmFragWit : Dmap := ⟨⟨[(9, entW)], [], [(7, OlricErr.fragmented)]⟩, none⟩

def partWit : Partition := ⟨0, false, [mW], [("m", dmWit)]⟩

def partBW : Partition := ⟨0, false, [mBW], [("m", dmWit)]⟩

def dbWit : Olric := ⟨mW, [partWit], [], some ⟨some []⟩, none, 1, 1⟩

def dbRW : Olric := ⟨mW, [partBW], [], none, none, 1, 1⟩

def strWit : Fragment := ⟨[(7, entW2)], [], []⟩

def boxWit : Dmapbox := ⟨0, false, "m", Except.ok strWit, [(7, 50), (9, 75)]⟩

def boxErrWit : Dmapbox := ⟨0, false, "n", Except.error OlricErr.decodeFail, []⟩

def partMergedWit : Partition :=
  ⟨0, false, [mW], [("m", ⟨⟨[(7, entW2)], [], []⟩, some ⟨some [(7, 100), (9, 75)]⟩⟩)]⟩

def sigWit : Nat → Nat := fun t => if t < 3 then 0 else 1

def aliveWit : Nat → Bool := fun _ => true

def discoWit : Nat → Option Member := fun _ => some mBW

def efWit : Fragment → Except OlricErr (List Nat) := fun _ => Except.ok [1]

def mfWit : WireBox → Except OlricErr (List Nat) := fun _ => Except.ok [2]

def rfWit : List Nat → Option OlricErr := fun _ => none

def ownersWit : List Member := [mW, mBW]

def ownersShortWit : List Member := [mW]

/-! ### Association-list lemmas -/

theorem lookupA_storeA_self {κ α : Type} [DecidableEq κ] (k : κ) (v : α) (l : List (κ × α)) :
    lookupA (storeA k v l) k = some v := by
  induction l with
  | nil => simp [storeA, lookupA]
  | cons hd tl ih =>
    obtain ⟨k', v'⟩ := hd
    by_cases h : k' = k
    · simp [storeA, h, lookupA]
    · simp [storeA, h, lookupA, ih]

theorem storeA_storeA {κ α : Type} [DecidableEq κ] (k : κ) (v : α) (l : List (κ × α)) :
    storeA k v (storeA k v l) = storeA k v l := by
  induction l with
  | nil => simp [storeA]
  | cons hd tl ih =>
    obtain ⟨k', v'⟩ := hd
    by_cases h : k' = k
    · simp [storeA, h]
    · simp [storeA, h, ih]

theorem lookupA_deleteA_self {κ α : Type} [DecidableEq κ] (k : κ) (l : List (κ × α)) :
    lookupA (deleteA k l) k = none := by
  induction l with
  | nil => simp [deleteA, lookupA]
  | cons hd tl ih =>
    obtain ⟨k', v'⟩ := hd
    by_cases h : k' = k
    · simp [deleteA, h, ih]
    · simp [deleteA, h, lookupA, ih]

theorem mem_insertA {α : Type} (h : Nat) (e : α) (l : List (Nat × α)) (p : Nat × α) :
    p ∈ insertA h e l → p = (h, e) ∨ p ∈ l := by
  induction l with
  | nil => simp [insertA]
  | cons hd tl ih =>
    obtain ⟨k, v⟩ := hd
    by_cases h1 : h < k
    · simp [insertA, h1]
    · by_cases h2 : h = k
      · simp [insertA, h1, h2]; tauto
      · simp only [insertA, if_neg h1, if_neg h2, List.mem_cons]
        rintro (rfl | hm)
        · tauto
        · rcases ih hm with h3 | h3 <;> tauto

theorem lookupA_eq_none_of_not_mem_keys {α : Type} (l : List (Nat × α)) (k : Nat)
    (h : k ∉ l.map Prod.fst) : lookupA l k = none := by
  induction l with
  | nil => simp [lookupA]
  | cons hd tl ih =>
    obtain ⟨k', v'⟩ := hd
    simp only [List.map_cons, List.mem_cons] at h
    push_neg at h
    simp [lookupA, Ne.symm h.1, ih h.2]

theorem mem_keys_of_lookupA_isSome {α : Type} (l : List (Nat × α)) (k : Nat) (v : α)
    (h : lookupA l k = some v) : k ∈ l.map Prod.fst := by
  by_contra hc
  rw [lookupA_eq_none_of_not_mem_keys l k hc] at h
  cases h

theorem lookupA_insertA_self {α : Type} (h : Nat) (e : α) (l : List (Nat × α)) :
    lookupA (insertA h e l) h = some e := by
  induction l with
  | nil => simp [insertA, lookupA]
  | cons hd tl ih =>
    obtain ⟨k, v⟩ := hd
    by_cases h1 : h < k
    · simp [insertA, h1, lookupA]
    · by_cases h2 : h = k
      · simp [insertA, h1, h2, lookupA]
      · have : k ≠ h := fun hh => h2 hh.symm
        simp [insertA, h1, h2, lookupA, this, ih]

theorem lookupA_insertA_ne {α : Type} (h : Nat) (e : α) (l : List (Nat × α)) (k' : Nat)
    (hne : k' ≠ h) : lookupA (insertA h e l) k' = lookupA l k' := by
  induction l with
  | nil => simp [insertA, lookupA, Ne.symm hne]
  | cons hd tl ih =>
    obtain ⟨k, v⟩ := hd
    by_cases h1 : h < k
    · simp [insertA, h1, lookupA, Ne.symm hne]
    · by_cases h2 : h = k
      · subst h2
        simp [insertA, h1, lookupA, Ne.symm hne]
      · simp [insertA, h1, h2, lookupA, ih]

theorem keysSorted_insertA {α : Type} (h : Nat) (e : α) (l : List (Nat × α))
    (hs : keysSorted l) : keysSorted (insertA h e l) := by
  induction l with
  | nil => simp [insertA, keysSorted]
  | cons hd tl ih =>
    obtain ⟨k, v⟩ := hd
    rw [keysSorted, List.pairwise_cons] at hs
    by_cases h1 : h < k
    · rw [keysSorted, insertA]
      simp only [if_pos h1, List.pairwise_cons]
      refine ⟨?_, ?_, hs.2⟩
      · intro p hp
        rcases List.mem_cons.mp hp with rfl | hm
        · exact h1
        · exact lt_trans h1 (hs.1 p hm)
      · exact hs.1
    · by_cases h2 : h = k
      · subst h2
        rw [keysSorted]
        have hrw : insertA h e ((h, v) :: tl) = (h, e) :: tl := by
          simp [insertA, h1]
        rw [hrw, List.pairwise_cons]
        exact ⟨hs.1, hs.2⟩
      · rw [keysSorted, insertA]
        simp only [if_neg h1, if_neg h2, List.pairwise_cons]
        refine ⟨?_, ih hs.2⟩
        intro p hp
        rcases mem_insertA h e tl p hp with rfl | hm
        · exact lt_of_le_of_ne (Nat.le_of_not_lt h1) (fun hh => h2 hh.symm)
        · exact hs.1 p hm

theorem lookupA_of_mem_sorted {α : Type} (l : List (Nat × α)) (h : Nat) (e : α)
    (hs : keysSorted l) (hm : (h, e) ∈ l) : lookupA l h = some e := by
  induction l with
  | nil => cases hm
  | cons hd tl ih =>
    obtain ⟨k, v⟩ := hd
    rw [keysSorted, List.pairwise_cons] at hs
    rcases List.mem_cons.mp hm with heq | hm'
    · cases heq
      simp [lookupA]
    · have hk : k < h := hs.1 (h, e) hm'
      have : k ≠ h := Nat.ne_of_lt hk
      simp [lookupA, this, ih hs.2 hm']

theorem insertA_of_lookupA_eq {α : Type} (l : List (Nat × α)) (h : Nat) (e : α)
    (hs : keysSorted l) (hl : lookupA l h = some e) : insertA h e l = l := by
  induction l with
  | nil => cases hl
  | cons hd tl ih =>
    obtain ⟨k, v⟩ := hd
    rw [keysSorted, List.pairwise_cons] at hs
    by_cases h2 : k = h
    · subst h2
      rw [lookupA, if_pos rfl] at hl
      cases hl
      simp [insertA]
    · rw [lookupA, if_neg h2] at hl
      have hk : k < h := by
        have := mem_keys_of_lookupA_isSome tl h e hl
        simp only [List.mem_map] at this
        obtain ⟨p, hp, hph⟩ := this
        have := hs.1 p hp
        omega
      have h1 : ¬ h < k := by omega
      have h3 : h ≠ k := fun hh => h2 hh.symm
      simp [insertA, h1, h3, ih hs.2 hl]

/-! ### Access-log merge lemmas -/

theorem lookupA_isSome_of_mem {κ α : Type} [DecidableEq κ] (l : List (κ × α)) (k : κ) (v : α)
    (hm : (k, v) ∈ l) : (lookupA l k).isSome = true := by
  induction l with
  | nil => cases hm
  | cons hd tl ih =>
    obtain ⟨k', v'⟩ := hd
    rcases List.mem_cons.mp hm with heq | hm'
    · cases heq
      simp [lookupA]
    · by_cases h : k' = k
      · simp [lookupA, h]
      · simp [lookupA, h, ih hm']

theorem lookupA_append {κ α : Type} [DecidableEq κ] (l1 l2 : List (κ × α)) (k : κ) :
    lookupA (l1 ++ l2) k = (lookupA l1 k).or (lookupA l2 k) := by
  induction l1 with
  | nil => simp [lookupA]
  | cons hd tl ih =>
    obtain ⟨k', v'⟩ := hd
    by_cases h : k' = k
    · simp [lookupA, h]
    · simp [lookupA, h, ih]

theorem lookupA_mergeAL (al inc : List (Nat × Int)) (k : Nat) :
    lookupA (mergeAL al inc) k = (lookupA al k).or (lookupA inc k) := by
  induction inc generalizing al with
  | nil => simp [mergeAL, lookupA]
  | cons hd rest ih =>
    obtain ⟨k', t⟩ := hd
    rw [mergeAL]
    cases hal : lookupA al k' with
    | some t' =>
      rw [ih]
      by_cases h : k' = k
      · subst h
        rw [lookupA, if_pos rfl, hal]
        simp [Option.or]
      · simp [lookupA, h]
    | none =>
      rw [ih, lookupA_append]
      by_cases h : k' = k
      · subst h
        rw [hal]
        simp [lookupA]
      · simp [lookupA, h]

theorem mergeAL_of_keys_present (al inc : List (Nat × Int))
    (hp : ∀ p ∈ inc, (lookupA al p.1).isSome = true) : mergeAL al inc = al := by
  induction inc with
  | nil => rfl
  | cons hd rest ih =>
    obtain ⟨k, t⟩ := hd
    have hk := hp (k, t) (List.mem_cons_self _ _)
    rw [mergeAL]
    cases hal : lookupA al k with
    | some t' => exact ih (fun p hpm => hp p (List.mem_cons_of_mem _ hpm))
    | none => rw [hal] at hk; cases hk

theorem mergeAL_mergeAL (al inc : List (Nat × Int)) :
    mergeAL (mergeAL al inc) inc = mergeAL al inc := by
  apply mergeAL_of_keys_present
  intro p hpm
  rw [lookupA_mergeAL]
  have := lookupA_isSome_of_mem inc p.1 p.2 hpm
  cases h1 : lookupA al p.1 with
  | some t => simp [Option.or]
  | none =>
    cases h2 : lookupA inc p.1 with
    | some t => simp [Option.or]
    | none => rw [h2] at this; cases this

theorem mergeCache_mergeCache (c : Option Cache) (inc : List (Nat × Int)) :
    mergeCache (mergeCache c inc) inc = mergeCache c inc := by
  cases c with
  | none => rfl
  | some cc =>
    cases hal : cc.accessLog with
    | none => simp [mergeCache, hal]
    | some al => simp [mergeCache, hal, mergeAL_mergeAL]

/-! ### Version-resolution lemmas -/

theorem sortVersions_pair (a b : Entry) :
    sortVersions [⟨a⟩, ⟨b⟩] =
      if a.timestamp < b.timestamp then [⟨b⟩, ⟨a⟩] else [⟨a⟩, ⟨b⟩] := by
  by_cases h : a.timestamp < b.timestamp
  · simp [sortVersions, insertVersion, h]
  · simp [sortVersions, insertVersion, h]

theorem selectVersionForMerge_of_get_ok (dm : Dmap) (hkey : Nat) (entry current : Entry)
    (hg : storageGet dm.storage hkey = .ok current) :
    selectVersionForMerge dm hkey entry =
      .ok (if current.timestamp < entry.timestamp then entry else current) := by
  simp only [selectVersionForMerge, hg, sortVersions_pair]
  by_cases h : current.timestamp < entry.timestamp
  · simp [h]
  · simp [h]

theorem selectVersionForMerge_self (dm : Dmap) (hkey : Nat) (entry : Entry)
    (hg : storageGet dm.storage hkey = .ok entry) :
    selectVersionForMerge dm hkey entry = .ok entry := by
  rw [selectVersionForMerge_of_get_ok dm hkey entry entry hg]
  simp

theorem selectVersionForMerge_notFound (dm : Dmap) (hkey : Nat) (entry : Entry)
    (hg : storageGet dm.storage hkey = .error .keyNotFound) :
    selectVersionForMerge dm hkey entry = .ok entry := by
  rw [selectVersionForMerge, hg]
  simp

theorem selectVersionForMerge_err (dm : Dmap) (hkey : Nat) (entry : Entry) (e : OlricErr)
    (he : e ≠ .keyNotFound) (hg : storageGet dm.storage hkey = .error e) :
    selectVersionForMerge dm hkey entry = .error e := by
  rw [selectVersionForMerge, hg]
  simp [he]

/-! ### Merge-loop invariants -/

theorem insertA_ne_nil {α : Type} (h : Nat) (e : α) (l : List (Nat × α)) :
    insertA h e l ≠ [] := by
  cases l with
  | nil => simp [insertA]
  | cons hd tl =>
    obtain ⟨k, v⟩ := hd
    by_cases h1 : h < k
    · simp [insertA, h1]
    · by_cases h2 : h = k
      · simp [insertA, h1, h2]
      · simp [insertA, h1, h2]

theorem mergeLoop_preserves (l : List (Nat × Entry)) (dm : Dmap) (comps : Nat) :
    (mergeLoop dm comps l).1.storage.getFault = dm.storage.getFault ∧
    (mergeLoop dm comps l).1.storage.putFault = dm.storage.putFault ∧
    (mergeLoop dm comps l).1.cache = dm.cache := by
  induction l generalizing dm comps with
  | nil => simp [mergeLoop]
  | cons hd rest ih =>
    obtain ⟨hkey, ent⟩ := hd
    cases hsel : selectVersionForMerge dm hkey ent with
    | error e => simp [mergeLoop, hsel]
    | ok winner =>
      cases hpf : lookupA dm.storage.putFault hkey with
      | none =>
        simp only [mergeLoop, hsel, storagePut, hpf]
        exact ih _ _
      | some pf =>
        cases pf with
        | fragmented =>
          simp only [mergeLoop, hsel, storagePut, hpf]
          exact ih _ _
        | keyNotFound => simp [mergeLoop, hsel, storagePut, hpf]
        | invalidArgument => simp [mergeLoop, hsel, storagePut, hpf]
        | decodeFail => simp [mergeLoop, hsel, storagePut, hpf]
        | wrapped inner => simp [mergeLoop, hsel, storagePut, hpf]
        | other code => simp [mergeLoop, hsel, storagePut, hpf]

theorem mergeLoop_sorted (l : List (Nat × Entry)) (dm : Dmap) (comps : Nat)
    (hs : keysSorted dm.storage.entries) :
    keysSorted (mergeLoop dm comps l).1.storage.entries := by
  induction l generalizing dm comps with
  | nil => simpa [mergeLoop] using hs
  | cons hd rest ih =>
    obtain ⟨hkey, ent⟩ := hd
    cases hsel : selectVersionForMerge dm hkey ent with
    | error e => simpa [mergeLoop, hsel] using hs
    | ok winner =>
      cases hpf : lookupA dm.storage.putFault hkey with
      | none =>
        simp only [mergeLoop, hsel, storagePut, hpf]
        exact ih _ _ (keysSorted_insertA _ _ _ hs)
      | some pf =>
        cases pf with
        | fragmented =>
          simp only [mergeLoop, hsel, storagePut, hpf]
          exact ih _ _ (keysSorted_insertA _ _ _ hs)
        | keyNotFound => simpa [mergeLoop, hsel, storagePut, hpf] using hs
        | invalidArgument => simpa [mergeLoop, hsel, storagePut, hpf] using hs
        | decodeFail => simpa [mergeLoop, hsel, storagePut, hpf] using hs
        | wrapped inner => simpa [mergeLoop, hsel, storagePut, hpf] using hs
        | other code => simpa [mergeLoop, hsel, storagePut, hpf] using hs

theorem mergeLoop_ne_nil (l : List (Nat × Entry)) (dm : Dmap) (comps : Nat)
    (hne : dm.storage.entries ≠ []) :
    (mergeLoop dm comps l).1.storage.entries ≠ [] := by
  induction l generalizing dm comps with
  | nil => simpa [mergeLoop] using hne
  | cons hd rest ih =>
    obtain ⟨hkey, ent⟩ := hd
    cases hsel : selectVersionForMerge dm hkey ent with
    | error e => simpa [mergeLoop, hsel] using hne
    | ok winner =>
      cases hpf : lookupA dm.storage.putFault hkey with
      | none =>
        simp only [mergeLoop, hsel, storagePut, hpf]
        exact ih _ _ (insertA_ne_nil _ _ _)
      | some pf =>
        cases pf with
        | fragmented =>
          simp only [mergeLoop, hsel, storagePut, hpf]
          exact ih _ _ (insertA_ne_nil _ _ _)
        | keyNotFound => simpa [mergeLoop, hsel, storagePut, hpf] using hne
        | invalidArgument => simpa [mergeLoop, hsel, storagePut, hpf] using hne
        | decodeFail => simpa [mergeLoop, hsel, storagePut, hpf] using hne
        | wrapped inner => simpa [mergeLoop, hsel, storagePut, hpf] using hne
        | other code => simpa [mergeLoop, hsel, storagePut, hpf] using hne

theorem mergeLoop_untouched (l : List (Nat × Entry)) (dm : Dmap) (comps : Nat) (k : Nat)
    (hk : k ∉ l.map Prod.fst) :
    lookupA (mergeLoop dm comps l).1.storage.entries k = lookupA dm.storage.entries k := by
  induction l generalizing dm comps with
  | nil => simp [mergeLoop]
  | cons hd rest ih =>
    obtain ⟨hkey, ent⟩ := hd
    simp only [List.map_cons, List.mem_cons] at hk
    push_neg at hk
    cases hsel : selectVersionForMerge dm hkey ent with
    | error e => simp [mergeLoop, hsel]
    | ok winner =>
      cases hpf : lookupA dm.storage.putFault hkey with
      | none =>
        simp only [mergeLoop, hsel, storagePut, hpf]
        rw [ih _ _ hk.2]
        exact lookupA_insertA_ne _ _ _ _ hk.1
      | some pf =>
        cases pf with
        | fragmented =>
          simp only [mergeLoop, hsel, storagePut, hpf]
          rw [ih _ _ hk.2]
          exact lookupA_insertA_ne _ _ _ _ hk.1
        | keyNotFound => simp [mergeLoop, hsel, storagePut, hpf]
        | invalidArgument => simp [mergeLoop, hsel, storagePut, hpf]
        | decodeFail => simp [mergeLoop, hsel, storagePut, hpf]
        | wrapped inner => simp [mergeLoop, hsel, storagePut, hpf]
        | other code => simp [mergeLoop, hsel, storagePut, hpf]

theorem storageGet_fault (f : Fragment) (h : Nat) (e : OlricErr)
    (hf : lookupA f.getFault h = some e) : storageGet f h = .error e := by
  simp [storageGet, hf]

theorem storageGet_entry (f : Fragment) (h : Nat) (ent : Entry)
    (hf : lookupA f.getFault h = none) (he : lookupA f.entries h = some ent) :
    storageGet f h = .ok ent := by
  simp [storageGet, hf, he]

theorem storageGet_missing (f : Fragment) (h : Nat)
    (hf : lookupA f.getFault h = none) (he : lookupA f.entries h = none) :
    storageGet f h = .error .keyNotFound := by
  simp [storageGet, hf, he]

theorem head_not_mem_keys {α : Type} (hkey : Nat) (ent : α) (rest : List (Nat × α))
    (hl : keysSorted ((hkey, ent) :: rest)) : hkey ∉ rest.map Prod.fst := by
  rw [keysSorted, List.pairwise_cons] at hl
  intro hmem
  simp only [List.mem_map] at hmem
  obtain ⟨p, hp, hph⟩ := hmem
  have := hl.1 p hp
  omega

/-- Running the merge iteration over entries that are already present verbatim
in the local fragment leaves the dmap unchanged. -/
theorem mergeLoop_self_stable (l : List (Nat × Entry)) (dm : Dmap) (comps : Nat)
    (hs : keysSorted dm.storage.entries)
    (hl : ∀ p ∈ l, lookupA dm.storage.entries p.1 = some p.2) :
    (mergeLoop dm comps l).1 = dm := by
  induction l generalizing comps with
  | nil => simp [mergeLoop]
  | cons hd rest ih =>
    obtain ⟨hkey, ent⟩ := hd
    have hcur : lookupA dm.storage.entries hkey = some ent :=
      hl (hkey, ent) (List.mem_cons_self _ _)
    have hins : insertA hkey ent dm.storage.entries = dm.storage.entries :=
      insertA_of_lookupA_eq _ _ _ hs hcur
    have hrest : ∀ p ∈ rest, lookupA dm.storage.entries p.1 = some p.2 :=
      fun p hp => hl p (List.mem_cons_of_mem _ hp)
    cases hgf : lookupA dm.storage.getFault hkey with
    | some e =>
      have hget := storageGet_fault dm.storage hkey e hgf
      by_cases hnf : e = OlricErr.keyNotFound
      · subst hnf
        have hsel := selectVersionForMerge_notFound dm hkey ent hget
        cases hpf : lookupA dm.storage.putFault hkey with
        | none =>
          simp only [mergeLoop, hsel, storagePut, hpf, hins]
          exact ih _ hrest
        | some pf =>
          cases pf with
          | fragmented =>
            simp only [mergeLoop, hsel, storagePut, hpf, hins]
            exact ih _ hrest
          | keyNotFound => simp [mergeLoop, hsel, storagePut, hpf]
          | invalidArgument => simp [mergeLoop, hsel, storagePut, hpf]
          | decodeFail => simp [mergeLoop, hsel, storagePut, hpf]
          | wrapped inner => simp [mergeLoop, hsel, storagePut, hpf]
          | other code => simp [mergeLoop, hsel, storagePut, hpf]
      · have hsel := selectVersionForMerge_err dm hkey ent e hnf hget
        simp [mergeLoop, hsel]
    | none =>
      have hget := storageGet_entry dm.storage hkey ent hgf hcur
      have hsel := selectVersionForMerge_self dm hkey ent hget
      cases hpf : lookupA dm.storage.putFault hkey with
      | none =>
        simp only [mergeLoop, hsel, storagePut, hpf, hins]
        exact ih _ hrest
      | some pf =>
        cases pf with
        | fragmented =>
          simp only [mergeLoop, hsel, storagePut, hpf, hins]
          exact ih _ hrest
        | keyNotFound => simp [mergeLoop, hsel, storagePut, hpf]
        | invalidArgument => simp [mergeLoop, hsel, storagePut, hpf]
        | decodeFail => simp [mergeLoop, hsel, storagePut, hpf]
        | wrapped inner => simp [mergeLoop, hsel, storagePut, hpf]
        | other code => simp [mergeLoop, hsel, storagePut, hpf]

/-- After a continuing merge step inserted the resolved `winner` for `hkey` and
the iteration went on over `rest` (which does not mention `hkey` again),
re-running the step for `(hkey, ent)` resolves to the same winner and
re-inserting it changes nothing. -/
theorem mergeLoop_step_rerun (dm : Dmap) (hkey : Nat) (ent winner : Entry)
    (rest : List (Nat × Entry)) (c2 : Nat)
    (hs : keysSorted dm.storage.entries)
    (hknm : hkey ∉ rest.map Prod.fst)
    (hsel : selectVersionForMerge dm hkey ent = .ok winner) :
    selectVersionForMerge
        (mergeLoop { dm with storage :=
          { dm.storage with entries := insertA hkey winner dm.storage.entries } } c2 rest).1
        hkey ent = .ok winner ∧
    insertA hkey winner
        (mergeLoop { dm with storage :=
          { dm.storage with entries := insertA hkey winner dm.storage.entries } } c2 rest).1.storage.entries =
      (mergeLoop { dm with storage :=
          { dm.storage with entries := insertA hkey winner dm.storage.entries } } c2 rest).1.storage.entries ∧
    lookupA
        (mergeLoop { dm with storage :=
          { dm.storage with entries := insertA hkey winner dm.storage.entries } } c2 rest).1.storage.putFault
        hkey = lookupA dm.storage.putFault hkey := by
  set dm' : Dmap :=
    { dm with storage :=
      { dm.storage with entries := insertA hkey winner dm.storage.entries } } with hdm'
  have hpres := mergeLoop_preserves rest dm' c2
  have hgf1 : (mergeLoop dm' c2 rest).1.storage.getFault = dm.storage.getFault := by
    rw [hpres.1]
  have hpf1 : (mergeLoop dm' c2 rest).1.storage.putFault = dm.storage.putFault := by
    rw [hpres.2.1]
  have hlook : lookupA (mergeLoop dm' c2 rest).1.storage.entries hkey = some winner := by
    rw [mergeLoop_untouched rest dm' c2 hkey hknm]
    exact lookupA_insertA_self hkey winner dm.storage.entries
  have hsort : keysSorted (mergeLoop dm' c2 rest).1.storage.entries := by
    apply mergeLoop_sorted
    exact keysSorted_insertA hkey winner dm.storage.entries hs
  refine ⟨?_, insertA_of_lookupA_eq _ _ _ hsort hlook, by rw [hpf1]⟩
  cases hgf : lookupA dm.storage.getFault hkey with
  | some e =>
    have hget := storageGet_fault dm.storage hkey e hgf
    by_cases hnf : e = OlricErr.keyNotFound
    · subst hnf
      have : selectVersionForMerge dm hkey ent = .ok ent :=
        selectVersionForMerge_notFound dm hkey ent hget
      rw [this] at hsel
      injection hsel with hw
      subst hw
      have hget1 : storageGet (mergeLoop dm' c2 rest).1.storage hkey = .error .keyNotFound := by
        apply storageGet_fault
        rw [hgf1]
        exact hgf
      exact selectVersionForMerge_notFound _ hkey ent hget1
    · have : selectVersionForMerge dm hkey ent = .error e :=
        selectVersionForMerge_err dm hkey ent e hnf hget
      rw [this] at hsel
      cases hsel
  | none =>
    have hget1 : storageGet (mergeLoop dm' c2 rest).1.storage hkey = .ok winner := by
      apply storageGet_entry
      · rw [hgf1]; exact hgf
      · exact hlook
    cases hcur : lookupA dm.storage.entries hkey with
    | some cur =>
      have hget := storageGet_entry dm.storage hkey cur hgf hcur
      rw [selectVersionForMerge_of_get_ok dm hkey ent cur hget] at hsel
      have hw : winner = if cur.timestamp < ent.timestamp then ent else cur := by
        injection hsel with hw2
        exact hw2.symm
      rw [selectVersionForMerge_of_get_ok _ hkey ent winner hget1]
      by_cases hts : cur.timestamp < ent.timestamp
      · rw [hw]
        simp [hts]
      · rw [hw]
        simp [hts]
    | none =>
      have hget := storageGet_missing dm.storage hkey hgf hcur
      have : selectVersionForMerge dm hkey ent = .ok ent :=
        selectVersionForMerge_notFound dm hkey ent hget
      rw [this] at hsel
      injection hsel with hw
      subst hw
      exact selectVersionForMerge_self _ hkey ent hget1

/-- Re-running the merge iteration with the same imported entries over the
already-merged dmap is a no-op: version resolution is deterministic and
re-putting the resolved winner does not change the fragment. -/
theorem mergeLoop_idem (l : List (Nat × Entry)) (dm : Dmap) (c c' : Nat)
    (hs : keysSorted dm.storage.entries) (hl : keysSorted l) :
    (mergeLoop (mergeLoop dm c l).1 c' l).1 = (mergeLoop dm c l).1 := by
  induction l generalizing dm c c' with
  | nil => simp [mergeLoop]
  | cons hd rest ih =>
    obtain ⟨hkey, ent⟩ := hd
    have hknm : hkey ∉ rest.map Prod.fst := head_not_mem_keys hkey ent rest hl
    have hlrest : keysSorted rest := by
      rw [keysSorted, List.pairwise_cons] at hl
      exact hl.2
    cases hsel : selectVersionForMerge dm hkey ent with
    | error e =>
      simp [mergeLoop, hsel]
    | ok winner =>
      have hs' : keysSorted (insertA hkey winner dm.storage.entries) :=
        keysSorted_insertA hkey winner dm.storage.entries hs
      cases hpf : lookupA dm.storage.putFault hkey with
      | some pf =>
        cases pf with
        | fragmented =>
          have hstep := mergeLoop_step_rerun dm hkey ent winner rest (c + 1) hs hknm hsel
          simp only [mergeLoop, hsel, storagePut, hpf]
          simp only [mergeLoop, hstep.1, storagePut, hstep.2.2, hpf, hstep.2.1]
          exact ih _ _ _ hs' hlrest
        | keyNotFound => simp [mergeLoop, hsel, storagePut, hpf]
        | invalidArgument => simp [mergeLoop, hsel, storagePut, hpf]
        | decodeFail => simp [mergeLoop, hsel, storagePut, hpf]
        | wrapped inner => simp [mergeLoop, hsel, storagePut, hpf]
        | other code => simp [mergeLoop, hsel, storagePut, hpf]
      | none =>
        have hstep := mergeLoop_step_rerun dm hkey ent winner rest c hs hknm hsel
        simp only [mergeLoop, hsel, storagePut, hpf]
        simp only [mergeLoop, hstep.1, storagePut, hstep.2.2, hpf, hstep.2.1]
        exact ih _ _ _ hs' hlrest

theorem getOrCreateDMap_store (db : Olric) (part : Partition) (name : String) (dm : Dmap)
    (l : List (String × Dmap)) :
    getOrCreateDMap db { part with maps := storeA name dm l } name = dm := by
  simp [getOrCreateDMap, lookupA_storeA_self]


theorem getOrCreateDMap_eq_of_lookup (db : Olric) (part : Partition) (name : String)
    (dm : Dmap) (h : lookupA part.maps name = some dm) :
    getOrCreateDMap db part name = dm := by
  simp [getOrCreateDMap, h]

/-- A partition whose stored dmap is a fixed point of the merge is left
unchanged by `mergeDMaps`. -/
theorem mergeDMaps_stable (db : Olric) (part : Partition) (box : Dmapbox) (dmS : Dmap)
    (hlook : lookupA part.maps box.name = some dmS)
    (hstore : storeA box.name dmS part.maps = part.maps)
    (hcache : ∀ str, box.payload = Except.ok str →
      mergeCache dmS.cache box.accessLog = dmS.cache)
    (hpay : ∀ str, box.payload = Except.ok str →
      (dmS.storage.entries.length = 0 → ({ dmS with storage := str } : Dmap) = dmS) ∧
      (dmS.storage.entries.length ≠ 0 → (mergeLoop dmS 0 str.entries).1 = dmS)) :
    (mergeDMaps db part box).1 = part := by
  have hget : getOrCreateDMap db part box.name = dmS :=
    getOrCreateDMap_eq_of_lookup db part box.name dmS hlook
  cases hp : box.payload with
  | error e =>
    simp only [mergeDMaps, hget, hp, hstore]
  | ok str =>
    simp only [mergeDMaps, hget, hp, hcache str hp]
    have heta : ({ dmS with cache := dmS.cache } : Dmap) = dmS := rfl
    rw [heta]
    by_cases hlen : dmS.storage.entries.length = 0
    · simp only [hlen, if_pos, (hpay str hp).1 hlen, hstore]
    · simp only [hlen, if_neg, not_false_iff]
      rcases hml : mergeLoop dmS 0 str.entries with ⟨dm2, c2, m2⟩
      have hdm2 : dm2 = dmS := by
        have h1 : (mergeLoop dmS 0 str.entries).1 = dm2 := by rw [hml]
        rw [← h1]
        exact (hpay str hp).2 hlen
      simp only [hml, hdm2, hstore]

theorem mergeDMaps_error_eq (db : Olric) (part : Partition) (box : Dmapbox) (e : OlricErr)
    (hp : box.payload = Except.error e) :
    mergeDMaps db part box =
      ({ part with maps := storeA box.name (getOrCreateDMap db part box.name) part.maps },
       0, some e) := by
  simp [mergeDMaps, hp]

theorem mergeDMaps_fast_eq (db : Olric) (part : Partition) (box : Dmapbox) (str : Fragment)
    (hp : box.payload = Except.ok str)
    (hlen : (getOrCreateDMap db part box.name).storage.entries.length = 0) :
    mergeDMaps db part box =
      ({ part with
          maps :=
            storeA box.name
              ({ storage := str,
                 cache := mergeCache (getOrCreateDMap db part box.name).cache box.accessLog })
              part.maps },
       0, none) := by
  simp [mergeDMaps, hp, hlen]

theorem mergeDMaps_loop_eq (db : Olric) (part : Partition) (box : Dmapbox) (str : Fragment)
    (dm' : Dmap) (comps : Nat) (merr : Option OlricErr)
    (hp : box.payload = Except.ok str)
    (hlen : ¬ (getOrCreateDMap db part box.name).storage.entries.length = 0)
    (hml : mergeLoop
        { storage := (getOrCreateDMap db part box.name).storage,
          cache := mergeCache (getOrCreateDMap db part box.name).cache box.accessLog }
        0 str.entries = (dm', comps, merr)) :
    mergeDMaps db part box =
      ({ part with maps := storeA box.name dm' part.maps }, comps, merr) := by
  simp [mergeDMaps, hp, hlen, hml]

/-- C3: for every partition state and every decoded transfer payload (in
canonical sorted form), applying `mergeDMaps` twice in succession with the same
payload leaves the partition — dmap storage contents and access log included —
in the same final state as applying it exactly once. -/
theorem c3_mergeDMaps_idempotent (db : Olric) (part : Partition) (box : Dmapbox)
    (hwf1 : keysSorted (getOrCreateDMap db part box.name).storage.entries)
    (hwf2 : ∀ str, box.payload = Except.ok str → keysSorted str.entries) :
    (mergeDMaps db (mergeDMaps db part box).1 box).1 = (mergeDMaps db part box).1 := by
  cases hpay : box.payload with
  | error e =>
    rw [mergeDMaps_error_eq db part box e hpay]
    apply mergeDMaps_stable db _ box (getOrCreateDMap db part box.name)
    · exact lookupA_storeA_self _ _ _
    · exact storeA_storeA _ _ _
    · intro str hstr
      rw [hpay] at hstr
      cases hstr
    · intro str hstr
      rw [hpay] at hstr
      cases hstr
  | ok str =>
    have hstr : keysSorted str.entries := hwf2 str hpay
    by_cases hlen : (getOrCreateDMap db part box.name).storage.entries.length = 0
    · rw [mergeDMaps_fast_eq db part box str hpay hlen]
      apply mergeDMaps_stable db _ box
        ({ storage := str,
           cache := mergeCache (getOrCreateDMap db part box.name).cache box.accessLog })
      · exact lookupA_storeA_self _ _ _
      · exact storeA_storeA _ _ _
      · intro str' hstr'
        rw [hpay] at hstr'
        injection hstr' with hss
        subst hss
        exact mergeCache_mergeCache _ _
      · intro str' hstr'
        rw [hpay] at hstr'
        injection hstr' with hss
        subst hss
        constructor
        · intro _
          rfl
        · intro _
          apply mergeLoop_self_stable
          · exact hstr
          · intro p hp
            exact lookupA_of_mem_sorted str.entries p.1 p.2 hstr hp
    · rcases hml1 : mergeLoop
          ({ storage := (getOrCreateDMap db part box.name).storage,
             cache := mergeCache (getOrCreateDMap db part box.name).cache box.accessLog })
          0 str.entries with ⟨dmF, comps, merr⟩
      have hdmF : (mergeLoop
          ({ storage := (getOrCreateDMap db part box.name).storage,
             cache := mergeCache (getOrCreateDMap db part box.name).cache box.accessLog })
          0 str.entries).1 = dmF := by
        rw [hml1]
      rw [mergeDMaps_loop_eq db part box str dmF comps merr hpay hlen hml1]
      apply mergeDMaps_stable db _ box dmF
      · exact lookupA_storeA_self _ _ _
      · exact storeA_storeA _ _ _
      · intro str' hstr'
        rw [hpay] at hstr'
        injection hstr' with hss
        subst hss
        have hcF : dmF.cache =
            mergeCache (getOrCreateDMap db part box.name).cache box.accessLog := by
          rw [← hdmF]
          exact (mergeLoop_preserves _ _ _).2.2
        rw [hcF]
        exact mergeCache_mergeCache _ _
      · intro str' hstr'
        rw [hpay] at hstr'
        injection hstr' with hss
        subst hss
        constructor
        · intro h0
          exfalso
          have hne : dmF.storage.entries ≠ [] := by
            rw [← hdmF]
            apply mergeLoop_ne_nil
            intro hnil
            apply hlen
            have : (getOrCreateDMap db part box.name).storage.entries = [] := hnil
            rw [this]
            rfl
          exact hne (List.length_eq_zero.mp h0)
        · intro _
          rw [← hdmF]
          apply mergeLoop_idem
          · exact hwf1
          · exact hstr

theorem lookupA_mem {κ α : Type} [DecidableEq κ] (l : List (κ × α)) (k : κ) (v : α)
    (h : lookupA l k = some v) : (k, v) ∈ l := by
  induction l with
  | nil => cases h
  | cons hd tl ih =>
    obtain ⟨k', v'⟩ := hd
    by_cases hk : k' = k
    · subst hk
      rw [lookupA, if_pos rfl] at h
      cases h
      exact List.mem_cons_self _ _
    · rw [lookupA, if_neg hk] at h
      exact List.mem_cons_of_mem _ (ih h)

/-- C9: after `getOrCreateDMap` succeeds, `mergeDMaps` stores the dmap back
into the partition's map table on every return path — also when importing the
payload fails — so a failed merge still leaves a (possibly freshly created,
possibly empty) dmap registered under the map's name. -/
theorem c9_mergeDMaps_always_stores (db : Olric) (part : Partition) (box : Dmapbox) :
    (lookupA (mergeDMaps db part box).1.maps box.name).isSome = true ∧
    (∀ e, box.payload = Except.error e →
      (mergeDMaps db part box).2.2 = some e ∧
      lookupA (mergeDMaps db part box).1.maps box.name =
        some (getOrCreateDMap db part box.name)) := by
  constructor
  · cases hpay : box.payload with
    | error e =>
      rw [mergeDMaps_error_eq db part box e hpay]
      simp [lookupA_storeA_self]
    | ok str =>
      by_cases hlen : (getOrCreateDMap db part box.name).storage.entries.length = 0
      · rw [mergeDMaps_fast_eq db part box str hpay hlen]
        simp [lookupA_storeA_self]
      · rcases hml : mergeLoop
            ({ storage := (getOrCreateDMap db part box.name).storage,
               cache := mergeCache (getOrCreateDMap db part box.name).cache box.accessLog })
            0 str.entries with ⟨dmF, comps, merr⟩
        rw [mergeDMaps_loop_eq db part box str dmF comps merr hpay hlen hml]
        simp [lookupA_storeA_self]
  · intro e hpay
    rw [mergeDMaps_error_eq db part box e hpay]
    exact ⟨rfl, lookupA_storeA_self _ _ _⟩

/-- C5: `selectVersionForMerge` returns the incoming entry on key-not-found,
propagates any other lookup error, and otherwise returns position 0 of the
two-element `{local, incoming}` list sorted by the version order — which is
the timestamp-max winner (ties keeping the local entry). -/
theorem c5_selectVersionForMerge_resolution (dm : Dmap) (hkey : Nat) (entry : Entry) :
    (storageGet dm.storage hkey = .error .keyNotFound →
      selectVersionForMerge dm hkey entry = .ok entry) ∧
    (∀ e, e ≠ OlricErr.keyNotFound → storageGet dm.storage hkey = .error e →
      selectVersionForMerge dm hkey entry = .error e) ∧
    (∀ current, storageGet dm.storage hkey = .ok current →
      selectVersionForMerge dm hkey entry =
        .ok (((sortVersions [⟨current⟩, ⟨entry⟩]).headD ⟨entry⟩).entry) ∧
      ((sortVersions [⟨current⟩, ⟨entry⟩]).headD ⟨entry⟩).entry =
        (if current.timestamp < entry.timestamp then entry else current)) := by
  refine ⟨?_, ?_, ?_⟩
  · intro hg
    exact selectVersionForMerge_notFound dm hkey entry hg
  · intro e hne hg
    exact selectVersionForMerge_err dm hkey entry e hne hg
  · intro current hg
    constructor
    · simp [selectVersionForMerge, hg]
    · rw [sortVersions_pair]
      by_cases h : current.timestamp < entry.timestamp
      · simp [h]
      · simp [h]

/-- C6: when the local dmap carries an access log and the payload imports,
`mergeDMaps` merges the incoming access log by inserting a pair only when its
hkey is absent locally: present hkeys keep their prior local timestamp, and
absent incoming hkeys adopt the incoming timestamp. -/
theorem c6_access_log_first_writer_wins (db : Olric) (part : Partition) (box : Dmapbox)
    (al : List (Nat × Int)) (str : Fragment)
    (hc : (getOrCreateDMap db part box.name).cache = some ⟨some al⟩)
    (hp : box.payload = Except.ok str) :
    (∃ dmF, lookupA (mergeDMaps db part box).1.maps box.name = some dmF ∧
      dmF.cache = some ⟨some (mergeAL al box.accessLog)⟩) ∧
    (∀ h t0, lookupA al h = some t0 → lookupA (mergeAL al box.accessLog) h = some t0) ∧
    (∀ h t, lookupA al h = none → lookupA box.accessLog h = some t →
      lookupA (mergeAL al box.accessLog) h = some t) := by
  refine ⟨?_, ?_, ?_⟩
  · have hmc : mergeCache (getOrCreateDMap db part box.name).cache box.accessLog =
        some ⟨some (mergeAL al box.accessLog)⟩ := by
      rw [hc]
      simp [mergeCache]
    by_cases hlen : (getOrCreateDMap db part box.name).storage.entries.length = 0
    · refine ⟨{ storage := str,
                cache := mergeCache (getOrCreateDMap db part box.name).cache box.accessLog },
              ?_, ?_⟩
      · rw [mergeDMaps_fast_eq db part box str hp hlen]
        exact lookupA_storeA_self _ _ _
      · exact hmc
    · rcases hml : mergeLoop
          ({ storage := (getOrCreateDMap db part box.name).storage,
             cache := mergeCache (getOrCreateDMap db part box.name).cache box.accessLog })
          0 str.entries with ⟨dmF, comps, merr⟩
      refine ⟨dmF, ?_, ?_⟩
      · rw [mergeDMaps_loop_eq db part box str dmF comps merr hp hlen hml]
        exact lookupA_storeA_self _ _ _
      · have h1 : (mergeLoop
            ({ storage := (getOrCreateDMap db part box.name).storage,
               cache := mergeCache (getOrCreateDMap db part box.name).cache box.accessLog })
            0 str.entries).1 = dmF := by rw [hml]
        rw [← h1, (mergeLoop_preserves _ _ _).2.2]
        exact hmc
  · intro h t0 hl
    rw [lookupA_mergeAL, hl]
    rfl
  · intro h t hl hinc
    rw [lookupA_mergeAL, hl, hinc]
    rfl

theorem storageGet_error_cases (f : Fragment) (h : Nat) (e : OlricErr)
    (hg : storageGet f h = .error e) :
    e = OlricErr.keyNotFound ∨ lookupA f.getFault h = some e := by
  cases hfa : lookupA f.getFault h with
  | some ef =>
    rw [storageGet_fault f h ef hfa] at hg
    injection hg with hh
    exact Or.inr (by rw [hh])
  | none =>
    cases hen : lookupA f.entries h with
    | some x =>
      rw [storageGet_entry f h x hfa hen] at hg
      cases hg
    | none =>
      rw [storageGet_missing f h hfa hen] at hg
      injection hg with hh
      exact Or.inl hh.symm

theorem selectVersionForMerge_error_cases (dm : Dmap) (hkey : Nat) (ent : Entry) (e : OlricErr)
    (hsel : selectVersionForMerge dm hkey ent = .error e) :
    e ≠ OlricErr.keyNotFound ∧ storageGet dm.storage hkey = .error e := by
  cases hget : storageGet dm.storage hkey with
  | error e' =>
    by_cases hnf : e' = OlricErr.keyNotFound
    · subst hnf
      rw [selectVersionForMerge_notFound dm hkey ent hget] at hsel
      cases hsel
    · rw [selectVersionForMerge_err dm hkey ent e' hnf hget] at hsel
      injection hsel with hee
      subst hee
      exact ⟨hnf, rfl⟩
  | ok current =>
    rw [selectVersionForMerge_of_get_ok dm hkey ent current hget] at hsel
    cases hsel

theorem mergeLoop_no_frag (l : List (Nat × Entry)) (dm : Dmap) (comps : Nat)
    (hgf : ∀ p ∈ dm.storage.getFault, p.2 ≠ OlricErr.fragmented) :
    (mergeLoop dm comps l).2.2 ≠ some OlricErr.fragmented := by
  induction l generalizing dm comps with
  | nil => simp [mergeLoop]
  | cons hd rest ih =>
    obtain ⟨hkey, ent⟩ := hd
    cases hsel : selectVersionForMerge dm hkey ent with
    | error e =>
      obtain ⟨hnf, hget⟩ := selectVersionForMerge_error_cases dm hkey ent e hsel
      have he : e ≠ OlricErr.fragmented := by
        rcases storageGet_error_cases dm.storage hkey e hget with h1 | h2
        · exact (hnf h1).elim
        · exact hgf (hkey, e) (lookupA_mem _ _ _ h2)
      rw [show mergeLoop dm comps ((hkey, ent) :: rest) = (dm, comps, some e) from by
        simp [mergeLoop, hsel]]
      intro hcontra
      injection hcontra with hx
      exact he hx
    | ok winner =>
      cases hpf : lookupA dm.storage.putFault hkey with
      | none =>
        simp only [mergeLoop, hsel, storagePut, hpf]
        exact ih _ _ hgf
      | some pf =>
        cases pf with
        | fragmented =>
          simp only [mergeLoop, hsel, storagePut, hpf]
          exact ih _ _ hgf
        | keyNotFound => simp [mergeLoop, hsel, storagePut, hpf]
        | invalidArgument => simp [mergeLoop, hsel, storagePut, hpf]
        | decodeFail => simp [mergeLoop, hsel, storagePut, hpf]
        | wrapped inner => simp [mergeLoop, hsel, storagePut, hpf]
        | other code => simp [mergeLoop, hsel, storagePut, hpf]

theorem mergeLoop_err_none (l : List (Nat × Entry)) (dm : Dmap) (comps : Nat)
    (hgf : dm.storage.getFault = [])
    (hpf : ∀ p ∈ dm.storage.putFault, p.2 = OlricErr.fragmented) :
    (mergeLoop dm comps l).2.2 = none := by
  induction l generalizing dm comps with
  | nil => simp [mergeLoop]
  | cons hd rest ih =>
    obtain ⟨hkey, ent⟩ := hd
    have hfa : lookupA dm.storage.getFault hkey = none := by
      rw [hgf]
      rfl
    have hsel : ∃ w, selectVersionForMerge dm hkey ent = .ok w := by
      cases hen : lookupA dm.storage.entries hkey with
      | some cur =>
        exact ⟨_, selectVersionForMerge_of_get_ok dm hkey ent cur
          (storageGet_entry dm.storage hkey cur hfa hen)⟩
      | none =>
        exact ⟨ent, selectVersionForMerge_notFound dm hkey ent
          (storageGet_missing dm.storage hkey hfa hen)⟩
    obtain ⟨w, hw⟩ := hsel
    cases hpfk : lookupA dm.storage.putFault hkey with
    | none =>
      simp only [mergeLoop, hw, storagePut, hpfk]
      exact ih _ _ hgf hpf
    | some pf =>
      have hpfr : pf = OlricErr.fragmented := hpf (hkey, pf) (lookupA_mem _ _ _ hpfk)
      subst hpfr
      simp only [mergeLoop, hw, storagePut, hpfk]
      exact ih _ _ hgf hpf

/-- C7: a fragmented put during the merge iteration schedules one async
compaction task, clears the error and continues with the next entry; the merge
never reports the fragmented signal to the caller, and when nothing but
fragmented puts goes wrong the receive handler replies `StatusOK`. -/
theorem c7_fragmented_is_not_an_error (db : Olric) (part : Partition) (box : Dmapbox)
    (dm : Dmap) (hkey : Nat) (ent winner : Entry) (rest : List (Nat × Entry)) (comps : Nat) :
    (lookupA dm.storage.putFault hkey = some OlricErr.fragmented →
      selectVersionForMerge dm hkey ent = .ok winner →
      mergeLoop dm comps ((hkey, ent) :: rest) =
        mergeLoop
          { dm with storage :=
            { dm.storage with entries := insertA hkey winner dm.storage.entries } }
          (comps + 1) rest) ∧
    ((∀ p ∈ (getOrCreateDMap db part box.name).storage.getFault,
        p.2 ≠ OlricErr.fragmented) →
      box.payload ≠ Except.error OlricErr.fragmented →
      (mergeDMaps db part box).2.2 ≠ some OlricErr.fragmented) ∧
    (∀ str, db.operable = none →
      checkOwnership db (boxPart db box) = true →
      box.payload = Except.ok str →
      (getOrCreateDMap db (boxPart db box) box.name).storage.getFault = [] →
      (∀ p ∈ (getOrCreateDMap db (boxPart db box) box.name).storage.putFault,
        p.2 = OlricErr.fragmented) →
      (moveDMapOperation db (some box)).1 = Resp.ok) := by
  refine ⟨?_, ?_, ?_⟩
  · intro hpf hsel
    simp [mergeLoop, hsel, storagePut, hpf]
  · intro hgf himp
    cases hpay : box.payload with
    | error e =>
      rw [mergeDMaps_error_eq db part box e hpay]
      intro hcontra
      injection hcontra with hx
      subst hx
      exact himp hpay
    | ok str =>
      by_cases hlen : (getOrCreateDMap db part box.name).storage.entries.length = 0
      · rw [mergeDMaps_fast_eq db part box str hpay hlen]
        simp
      · rcases hml : mergeLoop
            ({ storage := (getOrCreateDMap db part box.name).storage,
               cache := mergeCache (getOrCreateDMap db part box.name).cache box.accessLog })
            0 str.entries with ⟨dmF, comps2, merr⟩
        rw [mergeDMaps_loop_eq db part box str dmF comps2 merr hpay hlen hml]
        have := mergeLoop_no_frag str.entries
          ({ storage := (getOrCreateDMap db part box.name).storage,
             cache := mergeCache (getOrCreateDMap db part box.name).cache box.accessLog })
          0 hgf
        rw [hml] at this
        exact this
  · intro str hop hown hpay hgf hpf
    have hmerr : (mergeDMaps db (boxPart db box) box).2.2 = none := by
      by_cases hlen : (getOrCreateDMap db (boxPart db box) box.name).storage.entries.length = 0
      · rw [mergeDMaps_fast_eq db (boxPart db box) box str hpay hlen]
      · rcases hml : mergeLoop
            ({ storage := (getOrCreateDMap db (boxPart db box) box.name).storage,
               cache := mergeCache (getOrCreateDMap db (boxPart db box) box.name).cache
                 box.accessLog })
            0 str.entries with ⟨dmF, comps2, merr⟩
        rw [mergeDMaps_loop_eq db (boxPart db box) box str dmF comps2 merr hpay hlen hml]
        have := mergeLoop_err_none str.entries
          ({ storage := (getOrCreateDMap db (boxPart db box) box.name).storage,
             cache := mergeCache (getOrCreateDMap db (boxPart db box) box.name).cache
               box.accessLog })
          0 hgf hpf
        rw [hml] at this
        exact this
    rcases hmm : mergeDMaps db (boxPart db box) box with ⟨p', c', m'⟩
    have hm' : m' = none := by
      rw [hmm] at hmerr
      exact hmerr
    subst hm'
    simp [moveDMapOperation, hop, hown, hmm]

/-- C1: `moveDMapOperation` merges nothing and replies with an error unless, in
this order, the node is operable, the payload decodes, and the referenced
partition's owners contain the local node by id; a failed ownership check
yields an error wrapping `ErrInvalidArgument`; only after all three checks does
the merge run, and `StatusOK` is written on its success. -/
theorem c1_moveDMapOperation_preconditions (db : Olric) (dec : Option Dmapbox) :
    (∀ e, db.operable = some e → moveDMapOperation db dec = (.err e, db)) ∧
    (db.operable = none → dec = none →
      moveDMapOperation db dec = (.err .decodeFail, db)) ∧
    (∀ box, db.operable = none → dec = some box →
      checkOwnership db (boxPart db box) = false →
      moveDMapOperation db dec = (.err (.wrapped .invalidArgument), db) ∧
      errorsIs (.wrapped .invalidArgument) .invalidArgument = true) ∧
    (∀ box part' comps, db.operable = none → dec = some box →
      checkOwnership db (boxPart db box) = true →
      mergeDMaps db (boxPart db box) box = (part', comps, none) →
      moveDMapOperation db dec = (.ok, setBoxPart db box part')) := by
  refine ⟨?_, ?_, ?_, ?_⟩
  · intro e hop
    simp [moveDMapOperation, hop]
  · intro hop hdec
    subst hdec
    simp [moveDMapOperation, hop]
  · intro box hop hdec hown
    subst hdec
    refine ⟨?_, by simp [errorsIs]⟩
    simp [moveDMapOperation, hop, hown]
  · intro box part' comps hop hdec hown hmerge
    subst hdec
    simp [moveDMapOperation, hop, hown, hmerge]

/-- C2: in `moveDMap` the named map is removed from the partition's map table
precisely when the export, the encoding and the remote request all succeed; on
any failure the partition is unchanged (the map stays put) and the failing
step's error is returned. -/
theorem c2_moveDMap_delete_iff (part : Partition) (name : String) (dm : Dmap)
    (exportF : Fragment → Except OlricErr (List Nat))
    (marshalF : WireBox → Except OlricErr (List Nat))
    (requestF : List Nat → Option OlricErr)
    (hin : lookupA part.maps name = some dm) :
    (∀ e, exportF dm.storage = .error e →
      moveDMap part name dm exportF marshalF requestF = (part, some e)) ∧
    (∀ pay e, exportF dm.storage = .ok pay →
      marshalF (mkWireBox part name dm pay) = .error e →
      moveDMap part name dm exportF marshalF requestF = (part, some e)) ∧
    (∀ pay val e, exportF dm.storage = .ok pay →
      marshalF (mkWireBox part name dm pay) = .ok val → requestF val = some e →
      moveDMap part name dm exportF marshalF requestF = (part, some e)) ∧
    (∀ pay val, exportF dm.storage = .ok pay →
      marshalF (mkWireBox part name dm pay) = .ok val → requestF val = none →
      moveDMap part name dm exportF marshalF requestF =
        ({ part with maps := deleteA name part.maps }, none)) ∧
    (lookupA (moveDMap part name dm exportF marshalF requestF).1.maps name = none ↔
      ∃ pay val, exportF dm.storage = .ok pay ∧
        marshalF (mkWireBox part name dm pay) = .ok val ∧ requestF val = none) := by
  refine ⟨?_, ?_, ?_, ?_, ?_⟩
  · intro e hexp
    simp [moveDMap, hexp]
  · intro pay e hexp hmar
    simp [moveDMap, hexp, hmar]
  · intro pay val e hexp hmar hreq
    simp [moveDMap, hexp, hmar, hreq]
  · intro pay val hexp hmar hreq
    simp [moveDMap, hexp, hmar, hreq]
  · constructor
    · intro hnone
      cases hexp : exportF dm.storage with
      | error e =>
        rw [show moveDMap part name dm exportF marshalF requestF = (part, some e) from by
          simp [moveDMap, hexp]] at hnone
        rw [hin] at hnone
        cases hnone
      | ok pay =>
        cases hmar : marshalF (mkWireBox part name dm pay) with
        | error e =>
          rw [show moveDMap part name dm exportF marshalF requestF = (part, some e) from by
            simp [moveDMap, hexp, hmar]] at hnone
          rw [hin] at hnone
          cases hnone
        | ok val =>
          cases hreq : requestF val with
          | some e =>
            rw [show moveDMap part name dm exportF marshalF requestF = (part, some e) from by
              simp [moveDMap, hexp, hmar, hreq]] at hnone
            rw [hin] at hnone
            cases hnone
          | none =>
            exact ⟨pay, val, rfl, hmar, hreq⟩
    · rintro ⟨pay, val, hexp, hmar, hreq⟩
      rw [show moveDMap part name dm exportF marshalF requestF =
          ({ part with maps := deleteA name part.maps }, none) from by
        simp [moveDMap, hexp, hmar, hreq]]
      exact lookupA_deleteA_self name part.maps

/-! ### Rebalancer-pass tag lemmas -/

theorem rangeMaps_tags (rsign : Nat) (sig : Nat → Nat) (pid : Nat) :
    ∀ (maps : List (String × Dmap)) (t u : Nat), u + 1 = t → sig u = rsign →
      ∀ ev ∈ (rangeMaps rsign sig pid maps t).1,
        ∃ tr, tr + 1 = ev.tag ∧ sig tr = rsign := by
  intro maps
  induction maps with
  | nil =>
    intro t u hu hs ev hev
    simp [rangeMaps] at hev
  | cons hd rest ih =>
    obtain ⟨name, dmp⟩ := hd
    intro t u hu hs ev hev
    by_cases hc : sig t = rsign
    · rcases hr : rangeMaps rsign sig pid rest (t + 1) with ⟨evs, t'⟩
      rw [show rangeMaps rsign sig pid ((name, dmp) :: rest) t =
          (Ev.move t pid name :: evs, t') from by simp [rangeMaps, hc, hr]] at hev
      rcases List.mem_cons.mp hev with rfl | hmem
      · exact ⟨u, by simpa [Ev.tag] using hu, hs⟩
      · have := ih (t + 1) t rfl hc ev
        rw [hr] at this
        exact this hmem
    · rw [show rangeMaps rsign sig pid ((name, dmp) :: rest) t =
          ([Ev.move t pid name], t + 1) from by simp [rangeMaps, hc]] at hev
      rcases List.mem_cons.mp hev with rfl | hmem
      · exact ⟨u, by simpa [Ev.tag] using hu, hs⟩
      · cases hmem

theorem primLoop_tags (db : Olric) (rsign : Nat) (sig : Nat → Nat) (alive : Nat → Bool) :
    ∀ (lps : List (Nat × Partition)) (t : Nat),
      ∀ ev ∈ (primLoop db rsign sig alive lps t).1,
        ∃ tr, tr + 1 = ev.tag ∧ sig tr = rsign := by
  intro lps
  induction lps with
  | nil =>
    intro t ev hev
    simp [primLoop] at hev
  | cons hd rest ih =>
    obtain ⟨pid, part⟩ := hd
    intro t ev hev
    by_cases ha : alive t = false
    · rw [show primLoop db rsign sig alive ((pid, part) :: rest) t = ([], t + 1) from by
        simp [primLoop, ha]] at hev
      cases hev
    · by_cases hsg : sig (t + 1) ≠ rsign
      · rw [show primLoop db rsign sig alive ((pid, part) :: rest) t = ([], t + 2) from by
          simp [primLoop, ha, hsg]] at hev
        cases hev
      · have hsig : sig (t + 1) = rsign := not_not.mp hsg
        by_cases hl : part.maps.length = 0
        · rw [show primLoop db rsign sig alive ((pid, part) :: rest) t =
              primLoop db rsign sig alive rest (t + 2) from by
            simp [primLoop, ha, hsg, hl]] at hev
          exact ih (t + 2) ev hev
        · by_cases ho : cmpMembersByName (partOwner part) db.this = true
          · rw [show primLoop db rsign sig alive ((pid, part) :: rest) t =
                primLoop db rsign sig alive rest (t + 2) from by
              simp [primLoop, ha, hsg, hl, ho]] at hev
            exact ih (t + 2) ev hev
          · rcases hr : rangeMaps rsign sig pid part.maps (t + 2) with ⟨evs, t'⟩
            rcases hp : primLoop db rsign sig alive rest t' with ⟨evs2, t''⟩
            rw [show primLoop db rsign sig alive ((pid, part) :: rest) t =
                (Ev.visit (t + 2) pid :: evs ++ evs2, t'') from by
              simp [primLoop, ha, hsg, hl, ho, hr, hp]] at hev
            rcases List.mem_cons.mp hev with rfl | hmem
            · exact ⟨t + 1, by simp [Ev.tag], hsig⟩
            · rcases List.mem_append.mp hmem with hm1 | hm2
              · have := rangeMaps_tags rsign sig pid part.maps (t + 2) (t + 1) rfl hsig ev
                rw [hr] at this
                exact this hm1
              · have := ih t' ev
                rw [hp] at this
                exact this hm2

theorem idsLoop_tags (rsign : Nat) (sig : Nat → Nat) (alive : Nat → Bool)
    (disco : Nat → Option Member) (pid : Nat) (maps : List (String × Dmap)) :
    ∀ (ids : List Nat) (t : Nat),
      ∀ ev ∈ (idsLoop rsign sig alive disco pid maps ids t).1,
        ∃ tr, tr + 1 = ev.tag ∧ sig tr = rsign := by
  intro ids
  induction ids with
  | nil =>
    intro t ev hev
    simp [idsLoop] at hev
  | cons id restIds ih =>
    intro t ev hev
    by_cases ha : alive t = false
    · rw [show idsLoop rsign sig alive disco pid maps (id :: restIds) t = ([], t + 1) from by
        simp [idsLoop, ha]] at hev
      cases hev
    · by_cases hsg : sig (t + 1) ≠ rsign
      · rw [show idsLoop rsign sig alive disco pid maps (id :: restIds) t = ([], t + 2) from by
          simp [idsLoop, ha, hsg]] at hev
        cases hev
      · have hsig : sig (t + 1) = rsign := not_not.mp hsg
        cases hd : disco id with
        | none =>
          rw [show idsLoop rsign sig alive disco pid maps (id :: restIds) t =
              idsLoop rsign sig alive disco pid maps restIds (t + 2) from by
            simp [idsLoop, ha, hsg, hd]] at hev
          exact ih (t + 2) ev hev
        | some owner =>
          rcases hr : rangeMaps rsign sig pid maps (t + 2) with ⟨evs, t'⟩
          rcases hp : idsLoop rsign sig alive disco pid maps restIds t' with ⟨evs2, t''⟩
          rw [show idsLoop rsign sig alive disco pid maps (id :: restIds) t =
              (evs ++ evs2, t'') from by
            simp [idsLoop, ha, hsg, hd, hr, hp]] at hev
          rcases List.mem_append.mp hev with hm1 | hm2
          · have := rangeMaps_tags rsign sig pid maps (t + 2) (t + 1) rfl hsig ev
            rw [hr] at this
            exact this hm1
          · have := ih t' ev
            rw [hp] at this
            exact this hm2

theorem backupLoop_tags (db : Olric) (rsign : Nat) (sig : Nat → Nat) (alive : Nat → Bool)
    (disco : Nat → Option Member) :
    ∀ (lps : List (Nat × Partition)) (t : Nat),
      ∀ ev ∈ (backupLoop db rsign sig alive disco lps t).1,
        ∃ tr, tr + 1 = ev.tag ∧ sig tr = rsign := by
  intro lps
  induction lps with
  | nil =>
    intro t ev hev
    simp [backupLoop] at hev
  | cons hd rest ih =>
    obtain ⟨pid, part⟩ := hd
    intro t ev hev
    by_cases ha : alive t = false
    · rw [show backupLoop db rsign sig alive disco ((pid, part) :: rest) t = ([], t + 1) from by
        simp [backupLoop, ha]] at hev
      cases hev
    · by_cases hl : part.maps.length = 0
      · rw [show backupLoop db rsign sig alive disco ((pid, part) :: rest) t =
            backupLoop db rsign sig alive disco rest (t + 1) from by
          simp [backupLoop, ha, hl]] at hev
        exact ih (t + 1) ev hev
      · by_cases how : (part.owners.length : Int) = (db.replicaCount : Int) - 1
        · rw [show backupLoop db rsign sig alive disco ((pid, part) :: rest) t =
              backupLoop db rsign sig alive disco rest (t + 1) from by
            simp [backupLoop, ha, hl, how]] at hev
          exact ih (t + 1) ev hev
        · cases hcid : computeIds part.owners db.this db.replicaCount with
          | none =>
            rw [show backupLoop db rsign sig alive disco ((pid, part) :: rest) t =
                ([], t + 1) from by simp [backupLoop, ha, hl, how, hcid]] at hev
            cases hev
          | some ids =>
            rcases hi : idsLoop rsign sig alive disco pid part.maps ids (t + 1)
              with ⟨evs, t'⟩
            rcases hb : backupLoop db rsign sig alive disco rest t' with ⟨evs2, t''⟩
            rw [show backupLoop db rsign sig alive disco ((pid, part) :: rest) t =
                (evs ++ evs2, t'') from by
              simp [backupLoop, ha, hl, how, hcid, hi, hb]] at hev
            rcases List.mem_append.mp hev with hm1 | hm2
            · have := idsLoop_tags rsign sig alive disco pid part.maps ids (t + 1) ev
              rw [hi] at this
              exact this hm1
            · have := ih t' ev
              rw [hb] at this
              exact this hm2

/-- C4: when the routing signature permanently diverges from the snapshot taken
at the start of the pass (every read from time `t1` on differs from it), no
event of either pass carries a tag past `t1`: the primary partition loop breaks
at the next boundary and the map iterations of both passes stop after the
in-flight map, so no new move is initiated. -/
theorem c4_epoch_change_stops_moves (db : Olric) (sig : Nat → Nat) (alive : Nat → Bool)
    (disco : Nat → Option Member) (t0 t1 : Nat)
    (H : ∀ t, t1 ≤ t → sig t ≠ sig t0) :
    (∀ ev ∈ (rebalancePrimaryPartitions db sig alive t0).1, ev.tag ≤ t1) ∧
    (∀ ev ∈ (rebalanceBackupPartitions db sig alive disco t0).1, ev.tag ≤ t1) := by
  constructor
  · intro ev hev
    obtain ⟨tr, htr, hsr⟩ :=
      primLoop_tags db (sig t0) sig alive (withIdx 0 db.partitions) (t0 + 1) ev hev
    by_cases hlt : t1 ≤ tr
    · exact absurd hsr (H tr hlt)
    · omega
  · intro ev hev
    obtain ⟨tr, htr, hsr⟩ :=
      backupLoop_tags db (sig t0) sig alive disco (withIdx 0 db.backups) (t0 + 1) ev hev
    by_cases hlt : t1 ≤ tr
    · exact absurd hsr (H tr hlt)
    · omega

theorem rangeMaps_ev (rsign : Nat) (sig : Nat → Nat) (pid : Nat) :
    ∀ (maps : List (String × Dmap)) (t : Nat),
      ∀ ev ∈ (rangeMaps rsign sig pid maps t).1, ev.pid = pid ∧ ev.isMove = true := by
  intro maps
  induction maps with
  | nil =>
    intro t ev hev
    simp [rangeMaps] at hev
  | cons hd rest ih =>
    obtain ⟨name, dmp⟩ := hd
    intro t ev hev
    by_cases hc : sig t = rsign
    · rcases hr : rangeMaps rsign sig pid rest (t + 1) with ⟨evs, t'⟩
      rw [show rangeMaps rsign sig pid ((name, dmp) :: rest) t =
          (Ev.move t pid name :: evs, t') from by simp [rangeMaps, hc, hr]] at hev
      rcases List.mem_cons.mp hev with rfl | hmem
      · exact ⟨rfl, rfl⟩
      · have := ih (t + 1) ev
        rw [hr] at this
        exact this hmem
    · rw [show rangeMaps rsign sig pid ((name, dmp) :: rest) t =
          ([Ev.move t pid name], t + 1) from by simp [rangeMaps, hc]] at hev
      rcases List.mem_cons.mp hev with rfl | hmem
      · exact ⟨rfl, rfl⟩
      · cases hmem

theorem idsLoop_ev (rsign : Nat) (sig : Nat → Nat) (alive : Nat → Bool)
    (disco : Nat → Option Member) (pid : Nat) (maps : List (String × Dmap)) :
    ∀ (ids : List Nat) (t : Nat),
      ∀ ev ∈ (idsLoop rsign sig alive disco pid maps ids t).1,
        ev.pid = pid ∧ ev.isMove = true := by
  intro ids
  induction ids with
  | nil =>
    intro t ev hev
    simp [idsLoop] at hev
  | cons id restIds ih =>
    intro t ev hev
    by_cases ha : alive t = false
    · rw [show idsLoop rsign sig alive disco pid maps (id :: restIds) t = ([], t + 1) from by
        simp [idsLoop, ha]] at hev
      cases hev
    · by_cases hsg : sig (t + 1) ≠ rsign
      · rw [show idsLoop rsign sig alive disco pid maps (id :: restIds) t = ([], t + 2) from by
          simp [idsLoop, ha, hsg]] at hev
        cases hev
      · cases hd : disco id with
        | none =>
          rw [show idsLoop rsign sig alive disco pid maps (id :: restIds) t =
              idsLoop rsign sig alive disco pid maps restIds (t + 2) from by
            simp [idsLoop, ha, hsg, hd]] at hev
          exact ih (t + 2) ev hev
        | some owner =>
          rcases hr : rangeMaps rsign sig pid maps (t + 2) with ⟨evs, t'⟩
          rcases hp : idsLoop rsign sig alive disco pid maps restIds t' with ⟨evs2, t''⟩
          rw [show idsLoop rsign sig alive disco pid maps (id :: restIds) t =
              (evs ++ evs2, t'') from by simp [idsLoop, ha, hsg, hd, hr, hp]] at hev
          rcases List.mem_append.mp hev with hm1 | hm2
          · have := rangeMaps_ev rsign sig pid maps (t + 2) ev
            rw [hr] at this
            exact this hm1
          · have := ih t' ev
            rw [hp] at this
            exact this hm2

theorem backupLoop_ev (db : Olric) (rsign : Nat) (sig : Nat → Nat) (alive : Nat → Bool)
    (disco : Nat → Option Member) :
    ∀ (lps : List (Nat × Partition)) (t : Nat),
      ∀ ev ∈ (backupLoop db rsign sig alive disco lps t).1,
        ∃ p ∈ lps, ev.pid = p.1 ∧ p.2.maps.length ≠ 0 ∧
          (p.2.owners.length : Int) ≠ (db.replicaCount : Int) - 1 := by
  intro lps
  induction lps with
  | nil =>
    intro t ev hev
    simp [backupLoop] at hev
  | cons hd rest ih =>
    obtain ⟨pid, part⟩ := hd
    intro t ev hev
    by_cases ha : alive t = false
    · rw [show backupLoop db rsign sig alive disco ((pid, part) :: rest) t = ([], t + 1) from by
        simp [backupLoop, ha]] at hev
      cases hev
    · by_cases hl : part.maps.length = 0
      · rw [show backupLoop db rsign sig alive disco ((pid, part) :: rest) t =
            backupLoop db rsign sig alive disco rest (t + 1) from by
          simp [backupLoop, ha, hl]] at hev
        obtain ⟨p, hp, hrest⟩ := ih (t + 1) ev hev
        exact ⟨p, List.mem_cons_of_mem _ hp, hrest⟩
      · by_cases how : (part.owners.length : Int) = (db.replicaCount : Int) - 1
        · rw [show backupLoop db rsign sig alive disco ((pid, part) :: rest) t =
              backupLoop db rsign sig alive disco rest (t + 1) from by
            simp [backupLoop, ha, hl, how]] at hev
          obtain ⟨p, hp, hrest⟩ := ih (t + 1) ev hev
          exact ⟨p, List.mem_cons_of_mem _ hp, hrest⟩
        · cases hcid : computeIds part.owners db.this db.replicaCount with
          | none =>
            rw [show backupLoop db rsign sig alive disco ((pid, part) :: rest) t =
                ([], t + 1) from by simp [backupLoop, ha, hl, how, hcid]] at hev
            cases hev
          | some ids =>
            rcases hi : idsLoop rsign sig alive disco pid part.maps ids (t + 1)
              with ⟨evs, t'⟩
            rcases hb : backupLoop db rsign sig alive disco rest t' with ⟨evs2, t''⟩
            rw [show backupLoop db rsign sig alive disco ((pid, part) :: rest) t =
                (evs ++ evs2, t'') from by
              simp [backupLoop, ha, hl, how, hcid, hi, hb]] at hev
            rcases List.mem_append.mp hev with hm1 | hm2
            · have := idsLoop_ev rsign sig alive disco pid part.maps ids (t + 1) ev
              rw [hi] at this
              exact ⟨(pid, part), List.mem_cons_self _ _, (this hm1).1, hl, how⟩
            · have hm2' : ev ∈ (backupLoop db rsign sig alive disco rest t').1 := by
                rw [hb]
                exact hm2
              obtain ⟨p, hp, hrest⟩ := ih t' ev hm2'
              exact ⟨p, List.mem_cons_of_mem _ hp, hrest⟩

theorem withIdx_mem {α : Type} :
    ∀ (l : List α) (i j : Nat) (x : α), (j, x) ∈ withIdx i l → i ≤ j ∧ l[j - i]? = some x := by
  intro l
  induction l with
  | nil =>
    intro i j x hm
    cases hm
  | cons hd tl ih =>
    intro i j x hm
    rw [withIdx] at hm
    rcases List.mem_cons.mp hm with heq | hmem
    · injection heq with h1 h2
      subst h1
      subst h2
      simp
    · obtain ⟨hle, hget⟩ := ih (i + 1) j x hmem
      constructor
      · omega
      · have hj : j - i = (j - (i + 1)) + 1 := by omega
        rw [hj]
        simpa using hget

/-- C8: the backup pass runs only when the configured replica count exceeds the
minimum, and a backup partition whose owners list already has exactly
`ReplicaCount - 1` entries is skipped: no move event is issued for it. -/
theorem c8_backup_pass_gating (db : Olric) (sig : Nat → Nat) (alive : Nat → Bool)
    (disco : Nat → Option Member) :
    (db.replicaCount ≤ db.minimumReplicaCount →
      (rebalancer db sig alive disco).2 = []) ∧
    (∀ pid part, db.backups[pid]? = some part →
      (part.owners.length : Int) = (db.replicaCount : Int) - 1 →
      ∀ ev ∈ (rebalancer db sig alive disco).2,
        ¬(ev.isMove = true ∧ ev.pid = pid)) := by
  constructor
  · intro hle
    cases hop : db.operable with
    | some e => simp [rebalancer, hop]
    | none =>
      rcases hpp : rebalancePrimaryPartitions db sig alive 0 with ⟨evs1, tp⟩
      simp [rebalancer, hop, hpp, Nat.not_lt.mpr hle]
  · intro pid part hpart howners ev hev hcontra
    cases hop : db.operable with
    | some e =>
      rw [show (rebalancer db sig alive disco).2 = [] from by simp [rebalancer, hop]] at hev
      cases hev
    | none =>
      rcases hpp : rebalancePrimaryPartitions db sig alive 0 with ⟨evs1, tp⟩
      by_cases hrc : db.minimumReplicaCount < db.replicaCount
      · rw [show (rebalancer db sig alive disco).2 =
            (rebalanceBackupPartitions db sig alive disco tp).1 from by
          simp [rebalancer, hop, hpp, hrc]] at hev
        rw [rebalanceBackupPartitions] at hev
        obtain ⟨p, hp, hpid, hmaps, hown⟩ :=
          backupLoop_ev db (sig tp) sig alive disco (withIdx 0 db.backups) (tp + 1) ev hev
        obtain ⟨pidq, partq⟩ := p
        obtain ⟨_, hget⟩ := withIdx_mem db.backups 0 pidq partq hp
        simp only [Nat.sub_zero] at hget
        have hpidq : pidq = pid := by
          rw [← hcontra.2, hpid]
        subst hpidq
        rw [hpart] at hget
        injection hget with hpq
        subst hpq
        exact hown howners
      · rw [show (rebalancer db sig alive disco).2 = [] from by
          simp [rebalancer, hop, hpp, hrc]] at hev
        cases hev

theorem mem_loopIdx : ∀ (n : Nat) (top off j : Int), (top - off).toNat = n →
    (j ∈ loopIdx top off ↔ off < j ∧ j ≤ top) := by
  intro n
  induction n with
  | zero =>
    intro top off j hn
    have hle : top ≤ off := by omega
    rw [loopIdx, if_neg (by omega)]
    simp
    omega
  | succ k ih =>
    intro top off j hn
    have hgt : top > off := by omega
    rw [loopIdx, if_pos hgt]
    rw [List.mem_cons, ih (top - 1) off j (by omega)]
    constructor
    · rintro (rfl | ⟨h1, h2⟩)
      · omega
      · omega
    · rintro ⟨h1, h2⟩
      by_cases hj : j = top
      · exact Or.inl hj
      · exact Or.inr ⟨h1, by omega⟩

theorem collectIds_none_of_mem (owners : List Member) (self : Member) :
    ∀ (idxs : List Int) (i : Int), i ∈ idxs → ownerAt owners i = none →
      collectIds owners self idxs = none := by
  intro idxs
  induction idxs with
  | nil =>
    intro i hm _
    cases hm
  | cons j rest ih =>
    intro i hm hn
    rcases List.mem_cons.mp hm with rfl | hm2
    · simp [collectIds, hn]
    · cases hj : ownerAt owners j with
      | none => simp [collectIds, hj]
      | some owner =>
        have hrest := ih i hm2 hn
        by_cases hc : cmpMembersByName self owner = true
        · simp [collectIds, hj, hc, hrest]
        · simp [collectIds, hj, hc, hrest]

/-- Counterexample to C10 as stated: for a single owner and `ReplicaCount = 3`
(the reachable "shorter" shape, since `len = ReplicaCount - 1` is filtered out
by the guard) the descending loop is NOT clamped to the start of the list — it
also visits index `-1`, where the Go body `owners[i]` raises `index out of
range`, so the id collection aborts instead of returning the clamped tail. -/
theorem c10_loop_not_clamped_counterexample :
    (-1 : Int) ∈ loopIdx ((ownersShortWit.length : Int) - 1)
        ((ownersShortWit.length : Int) - 1 - (((3 : Nat) : Int) - 1)) ∧
    ownerAt ownersShortWit (-1) = none ∧
    computeIds ownersShortWit mW 3 = none := by
  have hmem : (-1 : Int) ∈ loopIdx ((ownersShortWit.length : Int) - 1)
      ((ownersShortWit.length : Int) - 1 - (((3 : Nat) : Int) - 1)) := by
    rw [mem_loopIdx ((((ownersShortWit.length : Int) - 1) -
        ((ownersShortWit.length : Int) - 1 - (((3 : Nat) : Int) - 1))).toNat) _ _ _ rfl]
    decide
  have hnone : ownerAt ownersShortWit (-1) = none := by decide
  refine ⟨hmem, hnone, ?_⟩
  show collectIds ownersShortWit mW (loopIdx ((ownersShortWit.length : Int) - 1)
      ((ownersShortWit.length : Int) - 1 - (((3 : Nat) : Int) - 1))) = none
  exact collectIds_none_of_mem ownersShortWit mW _ (-1) hmem hnone

/-- C10 (amended): the backup tail loop `for i := len(owners)-1; i > offset;
i--` with `offset = len(owners) - 1 - (ReplicaCount - 1)` visits exactly the
owner positions `[len - (ReplicaCount-1), len)` when the owners list has at
least `ReplicaCount` entries.  When it is shorter the offset is negative and
every owner position `len-1` down to `0` is visited, but the selection is NOT
clamped to the start of the list: only in the boundary case
`len = ReplicaCount - 1` (unreachable inside the backup pass because of the
`len == ReplicaCount-1` guard) does the loop stop exactly at position 0; for
`len < ReplicaCount - 1` it runs on to index `-1`, where `owners[i]` panics
with index out of range and the id collection aborts. -/
theorem c10_backup_tail_selection_amended (owners : List Member) (self : Member) (rc : Nat) :
    ((rc : Int) ≤ (owners.length : Int) →
      ∀ i : Nat,
        ((i : Int) ∈ loopIdx ((owners.length : Int) - 1)
            ((owners.length : Int) - 1 - ((rc : Int) - 1)) ↔
          ((owners.length : Int) - ((rc : Int) - 1) ≤ (i : Int) ∧
            (i : Int) < (owners.length : Int)))) ∧
    ((owners.length : Int) < (rc : Int) →
      ((owners.length : Int) - 1 - ((rc : Int) - 1) < 0 ∧
        ∀ i : Nat, (i : Int) < (owners.length : Int) →
          (i : Int) ∈ loopIdx ((owners.length : Int) - 1)
            ((owners.length : Int) - 1 - ((rc : Int) - 1)))) ∧
    ((owners.length : Int) + 1 = (rc : Int) →
      ∀ j : Int,
        (j ∈ loopIdx ((owners.length : Int) - 1)
            ((owners.length : Int) - 1 - ((rc : Int) - 1)) ↔
          (0 ≤ j ∧ j < (owners.length : Int)))) ∧
    ((owners.length : Int) + 1 < (rc : Int) →
      ((-1 : Int) ∈ loopIdx ((owners.length : Int) - 1)
          ((owners.length : Int) - 1 - ((rc : Int) - 1)) ∧
        computeIds owners self rc = none)) := by
  refine ⟨?_, ?_, ?_, ?_⟩
  · intro hge i
    rw [mem_loopIdx ((((owners.length : Int) - 1) -
        ((owners.length : Int) - 1 - ((rc : Int) - 1))).toNat) _ _ _ rfl]
    omega
  · intro hlt
    refine ⟨by omega, ?_⟩
    intro i hi
    rw [mem_loopIdx ((((owners.length : Int) - 1) -
        ((owners.length : Int) - 1 - ((rc : Int) - 1))).toNat) _ _ _ rfl]
    omega
  · intro hb j
    rw [mem_loopIdx ((((owners.length : Int) - 1) -
        ((owners.length : Int) - 1 - ((rc : Int) - 1))).toNat) _ _ _ rfl]
    omega
  · intro hlt
    have hmem : (-1 : Int) ∈ loopIdx ((owners.length : Int) - 1)
        ((owners.length : Int) - 1 - ((rc : Int) - 1)) := by
      rw [mem_loopIdx ((((owners.length : Int) - 1) -
          ((owners.length : Int) - 1 - ((rc : Int) - 1))).toNat) _ _ _ rfl]
      omega
    have hnone : ownerAt owners (-1) = none := by
      rw [ownerAt, if_pos (by omega)]
    refine ⟨hmem, ?_⟩
    show collectIds owners self (loopIdx ((owners.length : Int) - 1)
        ((owners.length : Int) - 1 - ((rc : Int) - 1))) = none
    exact collectIds_none_of_mem owners self _ (-1) hmem hnone

/-! ### Witnesses -/

theorem c1_moveDMapOperation_preconditions_witness :
    moveDMapOperation dbWit (some boxWit) = (Resp.ok, setBoxPart dbWit boxWit partMergedWit) :=
  (c1_moveDMapOperation_preconditions dbWit (some boxWit)).2.2.2 boxWit partMergedWit 0
    rfl rfl (by decide) (by decide)

theorem c2_moveDMap_delete_iff_witness :
    moveDMap partWit "m" dmWit efWit mfWit rfWit =
      ({ partWit with maps := deleteA "m" partWit.maps }, none) :=
  (c2_moveDMap_delete_iff partWit "m" dmWit efWit mfWit rfWit (by decide)).2.2.2.1
    [1] [2] rfl rfl rfl

theorem c3_mergeDMaps_idempotent_witness :
    (mergeDMaps dbWit (mergeDMaps dbWit partWit boxWit).1 boxWit).1 =
      (mergeDMaps dbWit partWit boxWit).1 :=
  c3_mergeDMaps_idempotent dbWit partWit boxWit (by decide)
    (fun str h => by
      injection h with hh
      rw [← hh]
      decide)

theorem c4_epoch_change_stops_moves_witness :
    Ev.tag (Ev.move 3 0 "m") ≤ 3 :=
  (c4_epoch_change_stops_moves dbRW sigWit aliveWit discoWit 0 3
    (fun t ht => by
      simp only [sigWit]
      rw [if_neg (by omega), if_pos (by omega)]
      decide)).1 (Ev.move 3 0 "m") (by decide)

theorem c5_selectVersionForMerge_resolution_witness :
    selectVersionForMerge dmWit 7 entW2 =
        Except.ok (((sortVersions [⟨entW⟩, ⟨entW2⟩]).headD ⟨entW2⟩).entry) ∧
      ((sortVersions [⟨entW⟩, ⟨entW2⟩]).headD ⟨entW2⟩).entry =
        (if entW.timestamp < entW2.timestamp then entW2 else entW) :=
  (c5_selectVersionForMerge_resolution dmWit 7 entW2).2.2 entW (by decide)

theorem c6_access_log_first_writer_wins_witness :
    lookupA (mergeAL [(7, 100)] boxWit.accessLog) 7 = some 100 :=
  (c6_access_log_first_writer_wins dbWit partWit boxWit [(7, 100)] strWit (by decide) rfl).2.1
    7 100 (by decide)

theorem c7_fragmented_is_not_an_error_witness :
    mergeLoop dmFragWit 0 ((7, entW2) :: []) =
      mergeLoop
        { dmFragWit with storage :=
          { dmFragWit.storage with entries := insertA 7 entW2 dmFragWit.storage.entries } }
        (0 + 1) [] :=
  (c7_fragmented_is_not_an_error dbWit partWit boxWit dmFragWit 7 entW2 entW2 [] 0).1
    (by decide) (by decide)

theorem c8_backup_pass_gating_witness :
    (rebalancer dbWit sigWit aliveWit discoWit).2 = [] :=
  (c8_backup_pass_gating dbWit sigWit aliveWit discoWit).1 (by decide)

theorem c9_mergeDMaps_always_stores_witness :
    (mergeDMaps dbWit partWit boxErrWit).2.2 = some OlricErr.decodeFail ∧
      lookupA (mergeDMaps dbWit partWit boxErrWit).1.maps boxErrWit.name =
        some (getOrCreateDMap dbWit partWit boxErrWit.name) :=
  (c9_mergeDMaps_always_stores dbWit partWit boxErrWit).2 OlricErr.decodeFail rfl

theorem c10_backup_tail_selection_amended_witness :
    ((1 : Int) ∈ loopIdx ((ownersWit.length : Int) - 1)
        ((ownersWit.length : Int) - 1 - (((2 : Nat) : Int) - 1)) ↔
      ((ownersWit.length : Int) - (((2 : Nat) : Int) - 1) ≤ (1 : Int) ∧
        (1 : Int) < (ownersWit.length : Int))) :=
  (c10_backup_tail_selection_amended ownersWit mW 2).1 (by decide) 1
